import Mathlib

/-!
# tuido: entry lifecycle operations and interaction state machine

A shallow embedding of `internal/core/types.go`, `internal/core/logic.go` and
the update loop of `main.go`.

Modelling conventions
* A Go `string` is a Lean `String`, i.e. a sequence of Unicode scalar values
  (a Go string holding valid UTF-8).  `len(s)` is the UTF-8 byte length.
* A Go slice `[]Entry` is a `List Entry`; a function that mutates the slice in
  place and returns it is modelled by the list it returns.
* `time.Time` is an abstract instant (`Int`), `*time.Time` is `Option Time`.
* `time.Now()` and `uuid.New().String()` are inputs of the operation that
  calls them (`now`, `newID`).
* Standard-library tables (`strings.ToLower`, `time.Format`) and the answers
  of the outside world to `Update` (storage, the text input widget with its
  `Update` and `SetValue`) are inputs.
* A run-time panic (index out of range) is the result `none`.
-/

namespace Tuido

/-! ## Data model (`types.go`) -/

/-- Go `time.Time`, kept abstract as an integer instant. -/
abbrev Time := Int

/-- Go `type EntryType string`. -/
abbrev EntryType := String

/-- Constant `TypeNote EntryType = "note"`. -/
def TypeNote : EntryType := "note"

/-- Constant `TypeTodo EntryType = "todo"`. -/
def TypeTodo : EntryType := "todo"

/-- Go `type Entry struct`; the field `Type` is spelled `Type_`. -/
structure Entry where
  ID : String
  CreatedAt : Time
  CompletedAt : Option Time
  Text : String
  Author : String
  Type_ : EntryType
deriving DecidableEq, Repr

/-! ## The parts of Go's `strings` and `unicode` packages used by `logic.go` -/

/-- Go `unicode.IsSpace`: the Latin-1 cases and the `White_Space` table. -/
def isSpace (c : Char) : Bool :=
  let n := c.toNat
  (0x09 ≤ n && n ≤ 0x0d) || n == 0x20 || n == 0x85 || n == 0xA0 || n == 0x1680 ||
    (0x2000 ≤ n && n ≤ 0x200a) || n == 0x2028 || n == 0x2029 || n == 0x202f ||
    n == 0x205f || n == 0x3000

/-- Scanner behind `strings.Fields`: `cur` is the field being read, newest
character first; a white space character closes a non-empty field. -/
def fieldsAux : List Char → List Char → List (List Char)
  | [], cur => if cur = [] then [] else [cur.reverse]
  | c :: cs, cur =>
    if isSpace c then
      (if cur = [] then fieldsAux cs [] else cur.reverse :: fieldsAux cs [])
    else fieldsAux cs (c :: cur)

/-- Go `strings.Fields`: the maximal runs of non-white-space characters. -/
def Fields (s : String) : List String :=
  (fieldsAux s.data []).map String.mk

/-- Go `strings.Join`. -/
def Join : List String → String → String
  | [], _ => ""
  | [a], _ => a
  | a :: b :: rest, sep => a ++ sep ++ Join (b :: rest) sep

/-- Go `strings.HasPrefix`. -/
def HasPrefix (s pre : String) : Bool :=
  pre.data.isPrefixOf s.data

/-- Go `strings.Contains`: `substr` occurs in `s` at some position. -/
def Contains (s substr : String) : Bool :=
  s.data.tails.any fun t => substr.data.isPrefixOf t

/-- Go `len(s)` on a string: the number of bytes of its UTF-8 encoding. -/
def len (s : String) : Nat :=
  s.utf8ByteSize

/-- Go `p[1:]` as used in `AddEntry`, where `p` starts with the one-byte
character `@`: the string without its first character. -/
def sliceFrom1 (p : String) : String :=
  String.mk (p.data.drop 1)

/-! ## Mutation operations (`logic.go`) -/

/-- Loop of `AddEntry` over `parts`, with the loop variables `finalAuthor`
and `newParts` as state. -/
def mentionLoop : List String → String → List String → String × List String
  | [], finalAuthor, newParts => (finalAuthor, newParts)
  | p :: ps, finalAuthor, newParts =>
    if HasPrefix p "@" && decide (len p > 1) then
      mentionLoop ps (sliceFrom1 p) newParts
    else
      mentionLoop ps finalAuthor (newParts ++ [p])

/-- Values of `finalAuthor` and `finalText` computed by `AddEntry`. -/
def finalAuthorText (text author : String) (entryType : EntryType) : String × String :=
  if entryType = TypeTodo ∧ Contains text "@" = true then
    let r := mentionLoop (Fields text) author []
    (r.1, Join r.2 " ")
  else
    (author, text)

/-- Go `AddEntry`; `newID` is the result of `uuid.New().String()` and `now`
the result of `time.Now()`. -/
def AddEntry (entries : List Entry) (text author : String) (entryType : EntryType)
    (newID : String) (now : Time) : List Entry :=
  let r := finalAuthorText text author entryType
  entries ++ [{ ID := newID, CreatedAt := now, CompletedAt := none,
                Text := r.2, Author := r.1, Type_ := entryType }]

/-- Go `MarkDone`; `now` is the result of `time.Now()`. -/
def MarkDone : List Entry → String → Time → List Entry
  | [], _, _ => []
  | e :: es, id, now =>
    if e.ID = id then { e with CompletedAt := some now } :: es
    else e :: MarkDone es id now

/-- Go `MarkUndone`. -/
def MarkUndone : List Entry → String → List Entry
  | [], _ => []
  | e :: es, id =>
    if e.ID = id then { e with CompletedAt := none } :: es
    else e :: MarkUndone es id

/-- Go `RemoveEntry`. -/
def RemoveEntry : List Entry → String → List Entry
  | [], _ => []
  | e :: es, id =>
    if e.ID ≠ id then e :: RemoveEntry es id
    else RemoveEntry es id

/-- Go `EditEntry`. -/
def EditEntry : List Entry → String → String → List Entry
  | [], _, _ => []
  | e :: es, id, newText =>
    if e.ID = id then { e with Text := newText } :: es
    else e :: EditEntry es id newText

/-- Go `RemoveEntries`; the map `ids map[string]struct{}` is given by the
list of its keys, and `_, found := ids[e.ID]` is membership in that list. -/
def RemoveEntries : List Entry → List String → List Entry
  | [], _ => []
  | e :: es, ids =>
    if ¬ (e.ID ∈ ids) then e :: RemoveEntries es ids
    else RemoveEntries es ids

/-- Loop of `FilterEntries`. `ToLower` stands for Go `strings.ToLower`, whose
Unicode case tables belong to the standard library. -/
def filterLoop (ToLower : String → String) (filter : String) : List Entry → List Entry
  | [] => []
  | e :: es =>
    if Contains (ToLower e.Text) (ToLower filter) ||
        Contains (ToLower e.Author) (ToLower filter) then
      e :: filterLoop ToLower filter es
    else filterLoop ToLower filter es

/-- Go `FilterEntries`. -/
def FilterEntries (ToLower : String → String) (entries : List Entry) (filter : String) :
    List Entry :=
  if filter = "" then entries else filterLoop ToLower filter entries

/-- Go `GetActiveTodos`. -/
def GetActiveTodos : List Entry → List Entry
  | [] => []
  | e :: es =>
    if e.Type_ = TypeTodo ∧ e.CompletedAt = none then e :: GetActiveTodos es
    else GetActiveTodos es

/-- Go `GetCompletedTodos`. -/
def GetCompletedTodos : List Entry → List Entry
  | [] => []
  | e :: es =>
    if e.Type_ = TypeTodo ∧ e.CompletedAt ≠ none then e :: GetCompletedTodos es
    else GetCompletedTodos es

/-- Go `GetActiveItems`. -/
def GetActiveItems : List Entry → List Entry
  | [] => []
  | e :: es =>
    if e.Type_ = TypeNote ∨ (e.Type_ = TypeTodo ∧ e.CompletedAt = none) then
      e :: GetActiveItems es
    else GetActiveItems es

/-! ## Export (`GenerateExportMarkdown`) -/

/-- First loop of `GenerateExportMarkdown`, with the slices `notes` and
`todos` as state. -/
def partitionLoop : List Entry → List Entry → List Entry → List Entry × List Entry
  | [], notes, todos => (notes, todos)
  | e :: es, notes, todos =>
    if e.Type_ = TypeNote then partitionLoop es (notes ++ [e]) todos
    else if e.Type_ = TypeTodo then partitionLoop es notes (todos ++ [e])
    else partitionLoop es notes todos

/-- Loop over `notes`, writing to the builder `sb`; `fmtDate` stands for
`t.Format("2006-01-02 15:04")` of the standard library. -/
def writeNotes (fmtDate : Time → String) : List Entry → String → String
  | [], sb => sb
  | n :: ns, sb =>
    writeNotes fmtDate ns
      (sb ++ ("- **" ++ n.Author ++ "** (" ++ fmtDate n.CreatedAt ++ "): " ++ n.Text ++ "\n"))

/-- Loop over `todos`, writing to the builder `sb`. -/
def writeTodos (fmtDate : Time → String) : List Entry → String → String
  | [], sb => sb
  | t :: ts, sb =>
    let check := if t.CompletedAt ≠ none then "x" else " "
    writeTodos fmtDate ts
      (sb ++ ("- [" ++ check ++ "] **" ++ t.Author ++ "** (" ++ fmtDate t.CreatedAt ++ "): " ++
        t.Text ++ "\n"))

/-- Go `GenerateExportMarkdown`; the returned string is the content of the
builder `sb`. -/
def GenerateExportMarkdown (fmtDate : Time → String) (entries : List Entry) : String :=
  let nt := partitionLoop entries [] []
  let sb := "" ++ "# Context\n\n"
  let sb := if nt.1.length = 0 then sb ++ "_No notes._\n" else writeNotes fmtDate nt.1 sb
  let sb := sb ++ "\n# Tasks\n\n"
  let sb := if nt.2.length = 0 then sb ++ "_No tasks._\n" else writeTodos fmtDate nt.2 sb
  sb

/-! ## Interaction state machine (`main.go`)

Rendering (the viewport, the styles, `View`) is left out; the text input
`m.textInput` is represented by its value. -/

/-- Go `strings.Split`'s scanner for a separator of one character. -/
def splitAux (sep : Char) : List Char → List Char → List (List Char)
  | [], cur => [cur.reverse]
  | c :: cs, cur =>
    if c = sep then cur.reverse :: splitAux sep cs [] else splitAux sep cs (c :: cur)

/-- Go `strings.Split(s, sep)` for a separator `sep` of one character. -/
def Split (s : String) (sep : Char) : List String :=
  (splitAux sep s.data []).map String.mk

/-- Go `strings.TrimPrefix`. -/
def TrimPrefix (s pre : String) : String :=
  if HasPrefix s pre then String.mk (s.data.drop pre.data.length) else s

/-- Go `type appState int` with its four constants. -/
inductive appState
  | stateViewMain
  | stateSelectTask
  | stateEditTaskInput
  | stateHistoryView
deriving DecidableEq, Repr

/-- Go `type selectMode int` with its four constants. -/
inductive selectMode
  | modeDone
  | modeUndone
  | modeEdit
  | modeRemove
deriving DecidableEq, Repr

/-- The values of `tea.KeyType` that `main.go` tests; `KeyOther` is any other
key type. -/
inductive KeyType
  | KeyEnter
  | KeyEsc
  | KeyUp
  | KeyDown
  | KeyPgUp
  | KeyPgDown
  | KeyOther
deriving DecidableEq, Repr

/-- A `tea.Msg`. For a key message, `Type_` is `msg.Type` and `str` is the
value of `msg.String()`; the library derives both from the key pressed, the
model leaves them independent. -/
inductive Msg
  | KeyMsg (Type_ : KeyType) (str : String)
  | WindowSizeMsg (Width Height : Int)
  | Other
deriving DecidableEq, Repr

/-- A `tea.Cmd` returned by `Update`: `nil`, `tea.Quit`, or the command that
`textinput.Update` returned. -/
inductive Cmd
  | nil
  | Quit
  | TextInput
deriving DecidableEq, Repr

/-- Go `type model struct`, without `filePath`, `configPath` and `viewport`.
The map `selectedIDs` is the list of its keys. -/
structure model where
  state : appState
  author : String
  entries : List Entry
  textInput : String
  cursor : Int
  selectList : List Entry
  selectedIDs : List String
  selectionMode : selectMode
  msg : String
deriving DecidableEq, Repr

/-- The setting `ti.CharLimit = 256` of the text input in `initialModel`. -/
def CharLimit : Nat := 256

/-- What the outside world answers during one `Update`; the text input widget
is part of it. `m.textInput.SetValue("")` is taken to empty the input. -/
structure Env where
  /-- Result of `time.Now()`. -/
  now : Time
  /-- Result of `uuid.New().String()`. -/
  newID : String
  /-- Error of `core.SaveEntries`, printed with `%v`, when it fails. -/
  saveErr : Option String
  /-- Result of `core.LoadEntries` right after `core.SaveEntries` was called
  with the given collection. -/
  load : List Entry → Except String (List Entry)
  /-- Value of the text input after `textinput.Update`. -/
  tiUpdate : String → Msg → String
  /-- Value of the text input after `m.textInput.SetValue(s)` for the text `s`
  of an entry: the widget is built with `CharLimit` and keeps what it accepts
  of `s`, which need not be all of `s`. -/
  tiSetValue : String → String
  /-- Result of `time.Now().Format("20060102_150405")`. -/
  exportTs : String
  /-- Error of `os.WriteFile`, printed with `%v`, when the export fails. -/
  exportErr : Option String

/-- Go `initialModel`, given the author it resolved and the entries it loaded. -/
def initialModel (author : String) (entries : List Entry) : model :=
  { state := appState.stateViewMain, author := author, entries := entries, textInput := "",
    cursor := 0, selectList := [], selectedIDs := [], selectionMode := selectMode.modeDone,
    msg := "" }

/-- Go `(m *model) reloadEntries`. -/
def reloadEntries (env : Env) (m : model) : model :=
  match env.load m.entries with
  | Except.error err => { m with msg := "Error loading file: " ++ err }
  | Except.ok entries => { m with entries := entries }

/-- Go `(m *model) save`. -/
def save (env : Env) (m : model) : model :=
  match env.saveErr with
  | some err => reloadEntries env { m with msg := "Error saving file: " ++ err }
  | none => reloadEntries env m

/-- Go `(m *model) prepareTaskSelection`. -/
def prepareTaskSelection (m : model) (mode : selectMode) : model :=
  let m := { m with selectList := [], selectionMode := mode, selectedIDs := [] }
  let m :=
    match mode with
    | selectMode.modeDone => { m with selectList := GetActiveTodos m.entries }
    | selectMode.modeUndone => { m with selectList := GetCompletedTodos m.entries }
    | selectMode.modeRemove => { m with selectList := GetActiveItems m.entries }
    | selectMode.modeEdit => { m with selectList := GetActiveItems m.entries }
  if m.selectList.length = 0 then { m with msg := "Nothing to select!" }
  else { m with state := appState.stateSelectTask, cursor := 0 }

/-- Case `"/todo", "/t"` of the command switch of `updateMain`. -/
def todoCommand (env : Env) (m : model) (val : String) : model :=
  let text := TrimPrefix val "/todo "
  let text := if text = "" then TrimPrefix val "/t " else text
  if text ≠ "" then
    let entries := AddEntry m.entries text m.author TypeTodo env.newID env.now
    save env { m with entries := entries }
  else m

/-- Case `"/author"` of the command switch of `updateMain`. -/
def authorCommand (m : model) (val : String) : model :=
  let parts := Fields val
  if parts.length > 1 then
    let name := Join (parts.drop 1) " "
    { m with author := name, msg := "Author updated to " ++ name }
  else m

/-- Case `"/export"` of the command switch of `updateMain`; the file written
is not part of the model. -/
def exportCommand (env : Env) (m : model) : model :=
  let filename := "todo_" ++ env.exportTs ++ ".md"
  match env.exportErr with
  | some err => { m with msg := "Export failed: " ++ err }
  | none => { m with msg := "Exported to " ++ filename }

/-- The command switch of `updateMain`, on the submitted value `val`; `m` has
its message and text input already cleared. `none` is a run-time panic. -/
def runCommand (env : Env) (m : model) (val : String) : Option (model × Cmd) :=
  match Split val ' ' with
  | [] => none
  | cmdStr :: _ =>
    if cmdStr = "/exit" then some (m, Cmd.Quit)
    else if cmdStr = "/todo" ∨ cmdStr = "/t" then some (todoCommand env m val, Cmd.nil)
    else if cmdStr = "/done" ∨ cmdStr = "/d" then
      some (prepareTaskSelection m selectMode.modeDone, Cmd.nil)
    else if cmdStr = "/undone" then
      some (prepareTaskSelection m selectMode.modeUndone, Cmd.nil)
    else if cmdStr = "/rm" then
      some (prepareTaskSelection m selectMode.modeRemove, Cmd.nil)
    else if cmdStr = "/edit" ∨ cmdStr = "/e" then
      some (prepareTaskSelection m selectMode.modeEdit, Cmd.nil)
    else if cmdStr = "/dhist" then
      some ({ m with state := appState.stateHistoryView }, Cmd.nil)
    else if cmdStr = "/author" then some (authorCommand m val, Cmd.nil)
    else if cmdStr = "/export" then some (exportCommand env m, Cmd.nil)
    else if cmdStr = "/help" then
      some ({ m with msg :=
        "Commands: /todo, /done, /undone, /rm, /edit, /dhist, /author, /export, /exit" },
        Cmd.nil)
    else some (m, Cmd.nil)

/-- Go `(m model) updateMain`. -/
def updateMain (env : Env) (m : model) (msg : Msg) : Option (model × Cmd) :=
  match msg with
  | Msg.KeyMsg KeyType.KeyEnter _ =>
    let m := { m with msg := "" }
    let val := m.textInput
    let m := { m with textInput := "" }
    if HasPrefix val "/" then runCommand env m val
    else if val ≠ "" then
      let entries := AddEntry m.entries val m.author TypeNote env.newID env.now
      some (save env { m with entries := entries }, Cmd.nil)
    else some (m, Cmd.nil)
  | Msg.KeyMsg _ _ =>
    let m := { m with msg := "" }
    some ({ m with textInput := env.tiUpdate m.textInput msg }, Cmd.TextInput)
  | _ => some ({ m with textInput := env.tiUpdate m.textInput msg }, Cmd.TextInput)

/-- Go `(m model) updateHistory`. -/
def updateHistory (m : model) (msg : Msg) : Option (model × Cmd) :=
  match msg with
  | Msg.KeyMsg _ _ => some ({ m with state := appState.stateViewMain }, Cmd.nil)
  | _ => some (m, Cmd.nil)

/-- Go slice indexing `l[i]` with an `int` index; `none` is the run-time
panic for an index out of range. -/
def index (l : List Entry) (i : Int) : Option Entry :=
  if 0 ≤ i then l[i.toNat]? else none

/-- Tail of the `"enter"` case of `updateTaskSelect`: `m.save()` and the
return to the main state. -/
def finishSelect (env : Env) (m : model) : Option (model × Cmd) :=
  let m := save env m
  some ({ m with state := appState.stateViewMain }, Cmd.nil)

/-- Go `(m model) updateTaskSelect`. -/
def updateTaskSelect (env : Env) (m : model) (msg : Msg) : Option (model × Cmd) :=
  match msg with
  | Msg.KeyMsg _ str =>
    if str = "up" ∨ str = "k" then
      some (if m.cursor > 0 then { m with cursor := m.cursor - 1 } else m, Cmd.nil)
    else if str = "down" ∨ str = "j" then
      some (if m.cursor < (m.selectList.length : Int) - 1 then
        { m with cursor := m.cursor + 1 } else m, Cmd.nil)
    else if str = " " then
      if m.selectionMode = selectMode.modeRemove then
        match index m.selectList m.cursor with
        | none => none
        | some sel =>
          if sel.ID ∈ m.selectedIDs then
            some ({ m with selectedIDs := m.selectedIDs.filter (fun x => x ≠ sel.ID) }, Cmd.nil)
          else some ({ m with selectedIDs := sel.ID :: m.selectedIDs }, Cmd.nil)
      else some (m, Cmd.nil)
    else if str = "enter" then
      if m.selectionMode = selectMode.modeRemove then
        if m.selectedIDs.length = 0 then
          match index m.selectList m.cursor with
          | none => none
          | some sel => finishSelect env { m with entries := RemoveEntry m.entries sel.ID }
        else finishSelect env { m with entries := RemoveEntries m.entries m.selectedIDs }
      else
        match index m.selectList m.cursor with
        | none => none
        | some selected =>
          if m.selectionMode = selectMode.modeDone then
            finishSelect env { m with entries := MarkDone m.entries selected.ID env.now }
          else if m.selectionMode = selectMode.modeUndone then
            finishSelect env { m with entries := MarkUndone m.entries selected.ID }
          else if m.selectionMode = selectMode.modeEdit then
            some ({ m with state := appState.stateEditTaskInput,
                           textInput := env.tiSetValue selected.Text }, Cmd.nil)
          else finishSelect env m
    else if str = "esc" then some ({ m with state := appState.stateViewMain }, Cmd.nil)
    else some (m, Cmd.nil)
  | _ => some (m, Cmd.nil)

/-- Go `(m model) updateEditTask`. -/
def updateEditTask (env : Env) (m : model) (msg : Msg) : Option (model × Cmd) :=
  match msg with
  | Msg.KeyMsg KeyType.KeyEnter _ =>
    match index m.selectList m.cursor with
    | none => none
    | some selected =>
      let m := save env { m with entries := EditEntry m.entries selected.ID m.textInput }
      some ({ m with textInput := "", state := appState.stateViewMain }, Cmd.nil)
  | Msg.KeyMsg KeyType.KeyEsc _ =>
    some ({ m with textInput := "", state := appState.stateViewMain }, Cmd.nil)
  | _ => some ({ m with textInput := env.tiUpdate m.textInput msg }, Cmd.TextInput)

/-- The `switch m.state` of `Update`. -/
def updateByState (env : Env) (m : model) (msg : Msg) : Option (model × Cmd) :=
  match m.state with
  | appState.stateViewMain => updateMain env m msg
  | appState.stateSelectTask => updateTaskSelect env m msg
  | appState.stateEditTaskInput => updateEditTask env m msg
  | appState.stateHistoryView => updateHistory m msg

/-- Go `(m model) Update`; a `tea.WindowSizeMsg` only resizes the viewport. -/
def Update (env : Env) (m : model) (msg : Msg) : Option (model × Cmd) :=
  match msg with
  | Msg.KeyMsg _ str =>
    if str = "ctrl+c" then some (m, Cmd.Quit) else updateByState env m msg
  | _ => updateByState env m msg

/-- The event loop: `Update` applied to a sequence of messages, each with the
answers of the outside world during it; `none` when an `Update` panics. -/
def run (m : model) : List (Env × Msg) → Option model
  | [] => some m
  | (env, msg) :: rest =>
    match Update env m msg with
    | none => none
    | some r => run r.1 rest

/-! ## Specification-side notions -/

/-- A mention token in the words of the specification: a token that begins
with `@` and has at least one more character. -/
def mentionToken (p : String) : Bool :=
  match p.data with
  | '@' :: _ :: _ => true
  | _ => false

/-- Author that the specification promises for a todo whose text has a
mention token: the remainder, after the `@`, of the FIRST mention token. -/
def specFirstMentionAuthor (text : String) : Option String :=
  ((Fields text).find? mentionToken).map sliceFrom1

/-- Tokens that the specification promises to keep: every token except the
first mention token (a later mention token is kept). -/
def dropFirstMention : List String → List String
  | [] => []
  | p :: ps => if mentionToken p then ps else p :: dropFirstMention ps

/-- Export line of a note in the words of the specification:
`- **author** (created_at): text`. -/
def noteLine (fmtDate : Time → String) (n : Entry) : String :=
  "- **" ++ n.Author ++ "** (" ++ fmtDate n.CreatedAt ++ "): " ++ n.Text ++ "\n"

/-- Export line of a todo in the words of the specification:
`- [x or space] **author** (created_at): text`, with `x` exactly when
`completed_at` is present. -/
def todoLine (fmtDate : Time → String) (t : Entry) : String :=
  "- [" ++ (if t.CompletedAt.isSome then "x" else " ") ++ "] **" ++ t.Author ++ "** (" ++
    fmtDate t.CreatedAt ++ "): " ++ t.Text ++ "\n"

/-- Lines written one after the other. -/
def concatLines : List String → String
  | [] => ""
  | l :: ls => l ++ concatLines ls

/-- A lower-casing of ASCII letters, on which Go `strings.ToLower` agrees for
ASCII text; used for concrete examples only. -/
def asciiToLower (s : String) : String :=
  String.mk (s.data.map Char.toLower)

/-- Selection pool that the specification gives to each selection mode. -/
def poolOf (mode : selectMode) (entries : List Entry) : List Entry :=
  match mode with
  | selectMode.modeDone => GetActiveTodos entries
  | selectMode.modeUndone => GetCompletedTodos entries
  | selectMode.modeRemove => GetActiveItems entries
  | selectMode.modeEdit => GetActiveItems entries

/-- Selection mode that a command name of the command table stands for. -/
def commandMode (cmd : String) : Option selectMode :=
  if cmd = "/done" ∨ cmd = "/d" then some selectMode.modeDone
  else if cmd = "/undone" then some selectMode.modeUndone
  else if cmd = "/rm" then some selectMode.modeRemove
  else if cmd = "/edit" ∨ cmd = "/e" then some selectMode.modeEdit
  else none

/-- Persist-and-reload returns the saved collection: `LoadEntries` after
`SaveEntries` gives back what was saved. -/
def IdealBackend (env : Env) : Prop :=
  ∀ es : List Entry, env.load es = Except.ok es

/-- No note-type entry has `completed_at` present. -/
def NotesOpen (entries : List Entry) : Prop :=
  ∀ e ∈ entries, e.Type_ = TypeNote → e.CompletedAt = none

/-- Along the run from `m`, every step has an ideal backend and generates an
id that no entry of the current collection carries. -/
def FreshIdeal (m : model) : List (Env × Msg) → Prop
  | [] => True
  | (env, msg) :: rest =>
    IdealBackend env ∧ env.newID ∉ m.entries.map Entry.ID ∧
      match Update env m msg with
      | none => True
      | some r => FreshIdeal r.1 rest

/-- Invariant of the state machine used for the claims on reachable states:
distinct ids, no completed note, a cursor inside the selection list while a
selection is in progress, and a done-mode selection list made of todos of the
current collection. -/
def Inv (m : model) : Prop :=
  (m.entries.map Entry.ID).Nodup ∧ NotesOpen m.entries ∧
    ((m.state = appState.stateSelectTask ∨ m.state = appState.stateEditTaskInput) →
      0 ≤ m.cursor ∧ m.cursor < (m.selectList.length : Int)) ∧
    (m.state = appState.stateSelectTask → m.selectionMode = selectMode.modeDone →
      ∀ s ∈ m.selectList, s ∈ m.entries ∧ s.Type_ = TypeTodo)

/-- An environment for concrete examples: ideal backend, text input that
ignores every message and that keeps the first `CharLimit` characters of a
text it is set to. -/
def exampleEnv : Env :=
  { now := 5, newID := "n1", saveErr := none, load := fun es => Except.ok es,
    tiUpdate := fun v _ => v, tiSetValue := fun s => String.mk (s.data.take CharLimit),
    exportTs := "20240101_100000", exportErr := none }

/-- A text of `CharLimit + 1` characters; for concrete examples. -/
def longText : String :=
  String.mk (List.replicate (CharLimit + 1) 'x')

/-- The main state with author `User`, the given entries and the given text
in the input; for concrete examples. -/
def exampleMain (entries : List Entry) (val : String) : model :=
  { (initialModel "User" entries) with textInput := val }

/-- The example environment in which the text input takes the value `v` on
every message (the user typed `v`). -/
def typingEnv (v : String) : Env :=
  { exampleEnv with tiUpdate := fun _ _ => v }

/-- A selection state over the pool `pool` in the given mode, cursor `c`,
nothing toggled; for concrete examples. -/
def exampleSelect (entries pool : List Entry) (mode : selectMode) (c : Int) : model :=
  { state := appState.stateSelectTask, author := "User", entries := entries, textInput := "",
    cursor := c, selectList := pool, selectedIDs := [], selectionMode := mode, msg := "" }

/-- While a selection or an edit is in progress, the cursor is an index of
the selection list. -/
def CursorOK (m : model) : Prop :=
  (m.state = appState.stateSelectTask ∨ m.state = appState.stateEditTaskInput) →
    0 ≤ m.cursor ∧ m.cursor < (m.selectList.length : Int)

/-- Proof device: the common shape of `MarkDone`, `MarkUndone` and
`EditEntry`, which rewrite the first entry whose id matches with `f`. -/
def updFirst (f : Entry → Entry) (id : String) : List Entry → List Entry
  | [] => []
  | e :: es => if e.ID = id then f e :: es else e :: updFirst f id es

/-! ## Lemmas on the in-place updates -/

theorem MarkDone_eq_updFirst (C : List Entry) (id : String) (now : Time) :
    MarkDone C id now = updFirst (fun e => { e with CompletedAt := some now }) id C := by
  induction C with
  | nil => rfl
  | cons e es ih => simp only [MarkDone, updFirst, ih]

theorem MarkUndone_eq_updFirst (C : List Entry) (id : String) :
    MarkUndone C id = updFirst (fun e => { e with CompletedAt := none }) id C := by
  induction C with
  | nil => rfl
  | cons e es ih => simp only [MarkUndone, updFirst, ih]

theorem EditEntry_eq_updFirst (C : List Entry) (id newText : String) :
    EditEntry C id newText = updFirst (fun e => { e with Text := newText }) id C := by
  induction C with
  | nil => rfl
  | cons e es ih => simp only [EditEntry, updFirst, ih]

theorem updFirst_absent (f : Entry → Entry) (id : String) (C : List Entry)
    (h : ∀ e ∈ C, e.ID ≠ id) : updFirst f id C = C := by
  induction C with
  | nil => rfl
  | cons e es ih =>
    have he : e.ID ≠ id := h e (List.mem_cons_self e es)
    have hes : ∀ x ∈ es, x.ID ≠ id := fun x hx => h x (List.mem_cons_of_mem e hx)
    simp [updFirst, he, ih hes]

theorem updFirst_length (f : Entry → Entry) (id : String) (C : List Entry) :
    (updFirst f id C).length = C.length := by
  induction C with
  | nil => rfl
  | cons e es ih =>
    by_cases he : e.ID = id <;> simp [updFirst, he, ih]

theorem updFirst_present (f : Entry → Entry) (id : String) (C : List Entry)
    (h : ∃ e ∈ C, e.ID = id) :
    ∃ i e, C[i]? = some e ∧ e.ID = id ∧
      (∀ (j : Nat) (e' : Entry), j < i → C[j]? = some e' → e'.ID ≠ id) ∧
      updFirst f id C = C.set i (f e) := by
  induction C with
  | nil => obtain ⟨e, he, _⟩ := h; cases he
  | cons x xs ih =>
    by_cases hx : x.ID = id
    · refine ⟨0, x, by simp, hx, ?_, by simp [updFirst, hx]⟩
      intro j e' hj
      exact absurd hj (Nat.not_lt_zero j)
    · have h' : ∃ e ∈ xs, e.ID = id := by
        obtain ⟨e, he, hid⟩ := h
        rcases List.mem_cons.mp he with rfl | he'
        · exact absurd hid hx
        · exact ⟨e, he', hid⟩
      obtain ⟨i, e, hi, hid, hfirst, hset⟩ := ih h'
      refine ⟨i + 1, e, by simpa using hi, hid, ?_, by simp [updFirst, hx, hset]⟩
      intro j e' hj hje
      cases j with
      | zero =>
        have : x = e' := by simpa using hje
        exact this ▸ hx
      | succ j =>
        exact hfirst j e' (Nat.lt_of_succ_lt_succ hj) (by simpa using hje)

theorem updFirst_at (f : Entry → Entry) (id : String) (C : List Entry) (i : Nat) (e : Entry)
    (hi : C[i]? = some e) (hid : e.ID = id)
    (hfirst : ∀ (j : Nat) (e' : Entry), j < i → C[j]? = some e' → e'.ID ≠ id) :
    updFirst f id C = C.set i (f e) := by
  induction C generalizing i with
  | nil => simp at hi
  | cons x xs ih =>
    cases i with
    | zero =>
      have hx : x = e := by simpa using hi
      subst hx
      simp [updFirst, hid]
    | succ i =>
      have hx : x.ID ≠ id := hfirst 0 x (Nat.succ_pos i) (by simp)
      have hrec := ih i (by simpa using hi)
        (fun j e' hj hje => hfirst (j + 1) e' (Nat.succ_lt_succ hj) (by simpa using hje))
      simp [updFirst, hx, hrec]

theorem getElem?_set_at (C : List Entry) (i : Nat) (e a : Entry) (hi : C[i]? = some e) :
    (C.set i a)[i]? = some a := by
  induction C generalizing i with
  | nil => simp at hi
  | cons x xs ih =>
    cases i with
    | zero => simp
    | succ i => simpa using ih i (by simpa using hi)

theorem getElem?_set_other (C : List Entry) (i j : Nat) (a : Entry) (hij : j ≠ i) :
    (C.set i a)[j]? = C[j]? := by
  induction C generalizing i j with
  | nil => simp
  | cons x xs ih =>
    cases i with
    | zero =>
      cases j with
      | zero => exact absurd rfl hij
      | succ j => simp
    | succ i =>
      cases j with
      | zero => simp
      | succ j => simpa using ih i j (fun h => hij (by rw [h]))

theorem set_same (C : List Entry) (i : Nat) (e : Entry) (h : C[i]? = some e) :
    C.set i e = C := by
  induction C generalizing i with
  | nil => rfl
  | cons x xs ih =>
    cases i with
    | zero =>
      have : x = e := by simpa using h
      simp [this]
    | succ i => simp [ih i (by simpa using h)]

theorem updFirst_updFirst (f g : Entry → Entry) (id : String) (C : List Entry)
    (hg : ∀ e, (g e).ID = e.ID) :
    updFirst f id (updFirst g id C) = updFirst (fun e => f (g e)) id C := by
  induction C with
  | nil => rfl
  | cons e es ih =>
    by_cases he : e.ID = id
    · simp [updFirst, he, hg]
    · simp [updFirst, he, ih]

theorem updFirst_fix (f : Entry → Entry) (id : String) (C : List Entry)
    (hf : ∀ i e, C[i]? = some e → e.ID = id →
      (∀ (j : Nat) (e' : Entry), j < i → C[j]? = some e' → e'.ID ≠ id) → f e = e) :
    updFirst f id C = C := by
  by_cases h : ∃ e ∈ C, e.ID = id
  · obtain ⟨i, e, hi, hid, hfirst, hset⟩ := updFirst_present f id C h
    rw [hset, hf i e hi hid hfirst]
    exact set_same C i e hi
  · exact updFirst_absent f id C (fun e he hid => h ⟨e, he, hid⟩)

/-! ## Lemmas on `RemoveEntry` -/

theorem RemoveEntry_eq_filter (C : List Entry) (id : String) :
    RemoveEntry C id = C.filter (fun e => decide (e.ID ≠ id)) := by
  induction C with
  | nil => rfl
  | cons e es ih =>
    by_cases he : e.ID = id <;> simp [RemoveEntry, he, ih]

theorem RemoveEntry_absent (C : List Entry) (id : String)
    (h : ∀ e ∈ C, e.ID ≠ id) : RemoveEntry C id = C := by
  rw [RemoveEntry_eq_filter]
  exact List.filter_eq_self.mpr (fun e he => by simpa using h e he)

theorem RemoveEntry_length_of_nodup (C : List Entry) (id : String)
    (hn : (C.map Entry.ID).Nodup) (hin : id ∈ C.map Entry.ID) :
    (RemoveEntry C id).length + 1 = C.length := by
  induction C with
  | nil => cases hin
  | cons e es ih =>
    rw [List.map_cons, List.nodup_cons] at hn
    rw [List.map_cons, List.mem_cons] at hin
    by_cases he : e.ID = id
    · have habs : ∀ x ∈ es, x.ID ≠ id := by
        intro x hx hxid
        exact hn.1 (he ▸ hxid ▸ List.mem_map_of_mem Entry.ID hx)
      simp [RemoveEntry, he, RemoveEntry_absent es id habs]
    · have hin' : id ∈ es.map Entry.ID := by
        rcases hin with h | h
        · exact absurd h.symm he
        · exact h
      have := ih hn.2 hin'
      simp [RemoveEntry, he, this]

/-! ## Lemmas on the string helpers -/

theorem cond_eq_mentionToken (p : String) :
    (HasPrefix p "@" && decide (len p > 1)) = mentionToken p := by
  obtain ⟨cs⟩ := p
  cases cs with
  | nil => rfl
  | cons c r =>
    by_cases hc : c = '@'
    · subst hc
      cases r with
      | nil => rfl
      | cons d r' =>
        have hd := Char.utf8Size_pos d
        have h1 : HasPrefix (String.mk ('@' :: d :: r')) "@" = true := by
          simp [HasPrefix, List.isPrefixOf]
        have h2 : len (String.mk ('@' :: d :: r')) > 1 := by
          have : Char.utf8Size '@' = 1 := by decide
          simp only [len, String.utf8ByteSize_mk, String.utf8Len_cons, this]
          omega
        simp [h1, h2, mentionToken]
    · have h1 : HasPrefix (String.mk (c :: r)) "@" = false := by
        have hc' : ('@' == c) = false := by
          simpa using fun h : '@' = c => hc h.symm
        simp [HasPrefix, List.isPrefixOf, hc']
      have h2 : mentionToken (String.mk (c :: r)) = false := by
        unfold mentionToken
        split
        · rename_i heq
          simp only [List.cons.injEq] at heq
          exact absurd heq.1 hc
        · rfl
      simp [h1, h2]

theorem mentionToken_iff (p : String) :
    mentionToken p = true ↔ ∃ c r, p.data = '@' :: c :: r := by
  unfold mentionToken
  split
  · rename_i c r heq
    exact ⟨fun _ => ⟨c, r, heq⟩, fun _ => rfl⟩
  · rename_i hne
    constructor
    · intro h; cases h
    · rintro ⟨c, r, h⟩
      exact absurd h (hne c r)

theorem Contains_at_iff (s : String) : Contains s "@" = true ↔ '@' ∈ s.data := by
  have key : ∀ l : List Char,
      (l.tails.any fun t => ['@'].isPrefixOf t) = true ↔ '@' ∈ l := by
    intro l
    induction l with
    | nil => simp [List.isPrefixOf]
    | cons c cs ih =>
      rw [List.tails, List.any_cons, Bool.or_eq_true, ih, List.mem_cons]
      simp [List.isPrefixOf]
  exact key s.data

theorem fieldsAux_chars (cs cur : List Char) :
    ∀ t ∈ fieldsAux cs cur, ∀ c ∈ t, c ∈ cs ∨ c ∈ cur := by
  induction cs generalizing cur with
  | nil =>
    intro t ht c hc
    by_cases hcur : cur = []
    · simp [fieldsAux, hcur] at ht
    · simp only [fieldsAux, if_neg hcur, List.mem_singleton] at ht
      subst ht
      exact Or.inr (List.mem_reverse.mp hc)
  | cons x xs ih =>
    intro t ht c hc
    by_cases hx : isSpace x = true
    · by_cases hcur : cur = []
      · simp only [fieldsAux, hx, if_true, hcur] at ht
        rcases ih [] t ht c hc with h | h
        · exact Or.inl (List.mem_cons_of_mem x h)
        · cases h
      · simp only [fieldsAux, hx, if_true, if_neg hcur, List.mem_cons] at ht
        rcases ht with ht | ht
        · subst ht
          exact Or.inr (List.mem_reverse.mp hc)
        · rcases ih [] t ht c hc with h | h
          · exact Or.inl (List.mem_cons_of_mem x h)
          · cases h
    · simp only [fieldsAux, hx] at ht
      rcases ih (x :: cur) t ht c hc with h | h
      · exact Or.inl (List.mem_cons_of_mem x h)
      · rcases List.mem_cons.mp h with h | h
        · exact Or.inl (h ▸ List.mem_cons_self x xs)
        · exact Or.inr h

theorem fieldsAux_tokens (cs cur : List Char) (hcur : ∀ c ∈ cur, isSpace c = false) :
    ∀ t ∈ fieldsAux cs cur, t ≠ [] ∧ ∀ c ∈ t, isSpace c = false := by
  induction cs generalizing cur with
  | nil =>
    intro t ht
    by_cases hc : cur = []
    · simp [fieldsAux, hc] at ht
    · simp only [fieldsAux, if_neg hc, List.mem_singleton] at ht
      subst ht
      exact ⟨fun h => hc (List.reverse_eq_nil_iff.mp h),
        fun c hcm => hcur c (List.mem_reverse.mp hcm)⟩
  | cons x xs ih =>
    intro t ht
    by_cases hx : isSpace x = true
    · by_cases hc : cur = []
      · simp only [fieldsAux, hx, if_true, hc] at ht
        exact ih [] (fun c h => by cases h) t ht
      · simp only [fieldsAux, hx, if_true, if_neg hc, List.mem_cons] at ht
        rcases ht with ht | ht
        · subst ht
          exact ⟨fun h => hc (List.reverse_eq_nil_iff.mp h),
            fun c hcm => hcur c (List.mem_reverse.mp hcm)⟩
        · exact ih [] (fun c h => by cases h) t ht
    · simp only [fieldsAux, hx] at ht
      refine ih (x :: cur) ?_ t ht
      intro c hcm
      rcases List.mem_cons.mp hcm with h | h
      · rw [h]; simpa using hx
      · exact hcur c h

theorem fieldsAux_append (t rest cur : List Char) (ht : ∀ c ∈ t, isSpace c = false) :
    fieldsAux (t ++ rest) cur = fieldsAux rest (t.reverse ++ cur) := by
  induction t generalizing cur with
  | nil => rfl
  | cons x xs ih =>
    have hx : isSpace x = false := ht x (List.mem_cons_self x xs)
    have hxs : ∀ c ∈ xs, isSpace c = false := fun c h => ht c (List.mem_cons_of_mem x h)
    have step : fieldsAux (x :: (xs ++ rest)) cur = fieldsAux (xs ++ rest) (x :: cur) := by
      simp [fieldsAux, hx]
    rw [List.cons_append, step, ih (x :: cur) hxs]
    simp

theorem Fields_Join (ts : List String)
    (hts : ∀ t ∈ ts, t.data ≠ [] ∧ ∀ c ∈ t.data, isSpace c = false) :
    Fields (Join ts " ") = ts := by
  unfold Fields
  induction ts with
  | nil => rfl
  | cons a rest ih =>
    have ha := hts a (List.mem_cons_self a rest)
    cases rest with
    | nil =>
      have h := fieldsAux_append a.data [] [] ha.2
      simp only [List.append_nil] at h
      simp [Join, h, fieldsAux, ha.1]
    | cons b rest' =>
      have hrest := ih (fun t h => hts t (List.mem_cons_of_mem a h))
      have hsp : isSpace ' ' = true := by decide
      have hd : (Join (a :: b :: rest') " ").data =
          a.data ++ ' ' :: (Join (b :: rest') " ").data := by
        simp [Join, String.data_append]
      rw [hd, fieldsAux_append a.data _ [] ha.2]
      simp only [List.append_nil, fieldsAux, hsp, if_true, List.reverse_eq_nil_iff, ha.1,
        if_false, List.reverse_reverse, List.map_cons, hrest]

theorem Fields_tokens (s : String) :
    ∀ t ∈ Fields s, t.data ≠ [] ∧ ∀ c ∈ t.data, isSpace c = false := by
  intro t ht
  unfold Fields at ht
  obtain ⟨l, hl, rfl⟩ := List.mem_map.mp ht
  exact fieldsAux_tokens s.data [] (fun c h => by cases h) l hl

theorem Fields_chars (s : String) : ∀ t ∈ Fields s, ∀ c ∈ t.data, c ∈ s.data := by
  intro t ht c hc
  unfold Fields at ht
  obtain ⟨l, hl, rfl⟩ := List.mem_map.mp ht
  rcases fieldsAux_chars s.data [] l hl c hc with h | h
  · exact h
  · cases h

theorem Contains_of_mention (text : String) (h : ∃ p ∈ Fields text, mentionToken p = true) :
    Contains text "@" = true := by
  obtain ⟨p, hp, hm⟩ := h
  obtain ⟨c, r, hd⟩ := (mentionToken_iff p).mp hm
  exact (Contains_at_iff text).mpr (Fields_chars text p hp '@' (by rw [hd]; exact List.mem_cons_self _ _))

theorem mentionLoop_eq (parts : List String) (a : String) (np : List String) :
    mentionLoop parts a np =
      ((((parts.filter mentionToken).getLast?).map sliceFrom1).getD a,
        np ++ parts.filter (fun p => !mentionToken p)) := by
  induction parts generalizing a np with
  | nil => simp [mentionLoop]
  | cons p ps ih =>
    by_cases hp : mentionToken p = true
    · simp only [mentionLoop, cond_eq_mentionToken, hp, if_true, ih, List.filter_cons,
        Bool.not_true, Bool.false_eq_true, if_false]
      congr 1
      cases hf : ps.filter mentionToken with
      | nil => simp
      | cons q qs =>
        obtain ⟨z, hz⟩ : ∃ z, (q :: qs).getLast? = some z :=
          ⟨_, List.getLast?_eq_getLast (q :: qs) (List.cons_ne_nil q qs)⟩
        rw [List.getLast?_cons_cons, hz]
        rfl
    · have hp' : mentionToken p = false := by simpa using hp
      simp only [mentionLoop, cond_eq_mentionToken, hp', Bool.false_eq_true, if_false, ih,
        List.filter_cons, Bool.not_false, if_true, List.append_assoc, List.singleton_append]

theorem finalAuthorText_todo_at (text author : String) (h : Contains text "@" = true) :
    finalAuthorText text author TypeTodo =
      ((((Fields text).filter mentionToken).getLast?.map sliceFrom1).getD author,
        Join ((Fields text).filter (fun p => !mentionToken p)) " ") := by
  have hc : TypeTodo = TypeTodo ∧ Contains text "@" = true := ⟨rfl, h⟩
  unfold finalAuthorText
  rw [if_pos hc]
  simp only [mentionLoop_eq, List.nil_append]

theorem finalAuthorText_todo_no_at (text author : String) (h : Contains text "@" = false) :
    finalAuthorText text author TypeTodo = (author, text) := by
  have hc : ¬ (TypeTodo = TypeTodo ∧ Contains text "@" = true) := by
    rw [h]; exact fun hh => absurd hh.2 (by decide)
  unfold finalAuthorText
  rw [if_neg hc]

theorem find?_of_filter_singleton (l : List String) (a : String)
    (h : l.filter mentionToken = [a]) : l.find? mentionToken = some a := by
  induction l with
  | nil => cases h
  | cons p ps ih =>
    by_cases hp : mentionToken p = true
    · rw [List.filter_cons, if_pos hp] at h
      rw [List.find?_cons, hp]
      exact congrArg some (List.cons.inj h).1
    · have hp' : mentionToken p = false := by simpa using hp
      rw [List.filter_cons, if_neg hp] at h
      rw [List.find?_cons, hp']
      exact ih h

theorem filter_not_eq_dropFirstMention (l : List String)
    (h : (l.filter mentionToken).length = 1) :
    l.filter (fun p => !mentionToken p) = dropFirstMention l := by
  induction l with
  | nil => cases h
  | cons p ps ih =>
    by_cases hp : mentionToken p = true
    · rw [List.filter_cons, if_pos hp, List.length_cons] at h
      have hnil : ps.filter mentionToken = [] :=
        List.length_eq_zero.mp (Nat.succ.inj h)
      have hall : ∀ a ∈ ps, (!mentionToken a) = true := by
        intro a ha
        have := (List.filter_eq_nil_iff.mp hnil) a ha
        simpa using this
      simp only [List.filter_cons, hp, Bool.not_true, Bool.false_eq_true, if_false,
        dropFirstMention, if_true]
      exact List.filter_eq_self.mpr hall
    · have hp' : mentionToken p = false := by simpa using hp
      rw [List.filter_cons, if_neg hp] at h
      simp only [List.filter_cons, hp', Bool.not_false, if_true, dropFirstMention,
        Bool.false_eq_true, if_false, ih h]

/-! ## Claims on the mutation operations -/

/-- C1: when no entry of `C` carries the given id, each of `MarkDone`,
`MarkUndone`, `EditEntry` (with any text) and `RemoveEntry` returns `C`
itself: same entries, same order, every field unchanged. -/
theorem C1_absent_id_is_noop (C : List Entry) (id : String) (now : Time) (t : String)
    (h : ∀ e ∈ C, e.ID ≠ id) :
    MarkDone C id now = C ∧ MarkUndone C id = C ∧ EditEntry C id t = C ∧
      RemoveEntry C id = C := by
  refine ⟨?_, ?_, ?_, RemoveEntry_absent C id h⟩
  · rw [MarkDone_eq_updFirst]; exact updFirst_absent _ id C h
  · rw [MarkUndone_eq_updFirst]; exact updFirst_absent _ id C h
  · rw [EditEntry_eq_updFirst]; exact updFirst_absent _ id C h

/-- Witness for C1 on a two-entry collection and the absent id `"zz"`. -/
theorem C1_absent_id_is_noop_witness :
    MarkDone [⟨"a", 1, none, "n", "u", TypeNote⟩, ⟨"b", 2, some 3, "t", "u", TypeTodo⟩] "zz" 9
        = [⟨"a", 1, none, "n", "u", TypeNote⟩, ⟨"b", 2, some 3, "t", "u", TypeTodo⟩] ∧
      MarkUndone [⟨"a", 1, none, "n", "u", TypeNote⟩, ⟨"b", 2, some 3, "t", "u", TypeTodo⟩] "zz"
        = [⟨"a", 1, none, "n", "u", TypeNote⟩, ⟨"b", 2, some 3, "t", "u", TypeTodo⟩] ∧
      EditEntry [⟨"a", 1, none, "n", "u", TypeNote⟩, ⟨"b", 2, some 3, "t", "u", TypeTodo⟩] "zz" "x @y"
        = [⟨"a", 1, none, "n", "u", TypeNote⟩, ⟨"b", 2, some 3, "t", "u", TypeTodo⟩] ∧
      RemoveEntry [⟨"a", 1, none, "n", "u", TypeNote⟩, ⟨"b", 2, some 3, "t", "u", TypeTodo⟩] "zz"
        = [⟨"a", 1, none, "n", "u", TypeNote⟩, ⟨"b", 2, some 3, "t", "u", TypeTodo⟩] :=
  C1_absent_id_is_noop _ "zz" 9 "x @y" (by decide)

/-- C2: `AddEntry` returns `entries` followed by exactly one new entry; the
result is one longer, its first `len(entries)` entries are those of
`entries`, and the new last entry has the requested type, no `completed_at`,
the generated id and the current time as `created_at`. -/
theorem C2_AddEntry_appends_one (entries : List Entry) (text author : String)
    (entryType : EntryType) (newID : String) (now : Time) :
    ∃ e, AddEntry entries text author entryType newID now = entries ++ [e] ∧
      e.Type_ = entryType ∧ e.CompletedAt = none ∧ e.ID = newID ∧ e.CreatedAt = now ∧
      (AddEntry entries text author entryType newID now).length = entries.length + 1 ∧
      (AddEntry entries text author entryType newID now).take entries.length = entries ∧
      (AddEntry entries text author entryType newID now).getLast? = some e := by
  refine ⟨_, rfl, rfl, rfl, rfl, rfl, ?_, ?_, ?_⟩ <;> simp [AddEntry]

/-- C5: a note-type `AddEntry` stores exactly the passed author and exactly
the passed text; no mention parsing and no re-tokenisation takes place. -/
theorem C5_AddEntry_note_verbatim (entries : List Entry) (text author newID : String)
    (now : Time) :
    AddEntry entries text author TypeNote newID now =
      entries ++ [⟨newID, now, none, text, author, TypeNote⟩] := by
  have h : ¬ (TypeNote = TypeTodo ∧ Contains text "@" = true) := fun h => absurd h.1 (by decide)
  simp only [AddEntry, finalAuthorText, if_neg h]

/-- C7: when some entry of `C` has the given id, `MarkDone` keeps the length
and order, puts `completed_at = now` on the first entry whose id matches
(whatever its type) keeping its other five fields, and leaves every other
position unchanged. -/
theorem C7_MarkDone_sets_first_match (C : List Entry) (id : String) (now : Time)
    (h : ∃ e ∈ C, e.ID = id) :
    (MarkDone C id now).length = C.length ∧
      ∃ i e, C[i]? = some e ∧ e.ID = id ∧
        (∀ (j : Nat) (e' : Entry), j < i → C[j]? = some e' → e'.ID ≠ id) ∧
        MarkDone C id now =
          C.set i ⟨e.ID, e.CreatedAt, some now, e.Text, e.Author, e.Type_⟩ ∧
        (MarkDone C id now)[i]? =
          some ⟨e.ID, e.CreatedAt, some now, e.Text, e.Author, e.Type_⟩ ∧
        ∀ j : Nat, j ≠ i → (MarkDone C id now)[j]? = C[j]? := by
  rw [MarkDone_eq_updFirst]
  refine ⟨updFirst_length _ id C, ?_⟩
  obtain ⟨i, e, hi, hid, hfirst, hset⟩ := updFirst_present
    (fun e => { e with CompletedAt := some now }) id C h
  refine ⟨i, e, hi, hid, hfirst, hset, ?_, ?_⟩
  · rw [hset]; exact getElem?_set_at C i e _ hi
  · intro j hj; rw [hset]; exact getElem?_set_other C i j _ hj

/-- Witness for C7: marking a note done sets its `completed_at` as well. -/
theorem C7_MarkDone_sets_first_match_witness :
    (∃ e ∈ [(⟨"a", 1, none, "n", "u", TypeNote⟩ : Entry), ⟨"b", 2, none, "t", "u", TypeTodo⟩],
        e.ID = "a") ∧
      MarkDone [⟨"a", 1, none, "n", "u", TypeNote⟩, ⟨"b", 2, none, "t", "u", TypeTodo⟩] "a" 7
        = [⟨"a", 1, some 7, "n", "u", TypeNote⟩, ⟨"b", 2, none, "t", "u", TypeTodo⟩] ∧
      (MarkDone [⟨"a", 1, none, "n", "u", TypeNote⟩, ⟨"b", 2, none, "t", "u", TypeTodo⟩] "a" 7).length
        = [(⟨"a", 1, none, "n", "u", TypeNote⟩ : Entry), ⟨"b", 2, none, "t", "u", TypeTodo⟩].length :=
  ⟨⟨_, List.mem_cons_self _ _, rfl⟩, by decide,
    (C7_MarkDone_sets_first_match _ "a" 7 ⟨_, List.mem_cons_self _ _, rfl⟩).1⟩

/-- C8: `MarkUndone` after `MarkDone` on the same id gives `C` with
`completed_at` cleared on the first entry matching the id (every other field
and entry as in `C`); it gives back `C` itself when no entry matches, and
when the first matching entry had no `completed_at`. -/
theorem C8_MarkUndone_after_MarkDone (C : List Entry) (id : String) (now : Time) :
    MarkUndone (MarkDone C id now) id = MarkUndone C id ∧
      ((∀ e ∈ C, e.ID ≠ id) → MarkUndone (MarkDone C id now) id = C) ∧
      (∀ (i : Nat) (e : Entry), C[i]? = some e → e.ID = id →
        (∀ (j : Nat) (e' : Entry), j < i → C[j]? = some e' → e'.ID ≠ id) →
        MarkUndone (MarkDone C id now) id =
            C.set i ⟨e.ID, e.CreatedAt, none, e.Text, e.Author, e.Type_⟩ ∧
          (e.CompletedAt = none → MarkUndone (MarkDone C id now) id = C)) := by
  have hcomp : MarkUndone (MarkDone C id now) id = MarkUndone C id := by
    rw [MarkDone_eq_updFirst, MarkUndone_eq_updFirst, MarkUndone_eq_updFirst]
    exact updFirst_updFirst (fun e => { e with CompletedAt := none })
      (fun e => { e with CompletedAt := some now }) id C (fun _ => rfl)
  refine ⟨hcomp, ?_, ?_⟩
  · intro h
    rw [hcomp, MarkUndone_eq_updFirst]
    exact updFirst_absent _ id C h
  · intro i e hi hid hfirst
    have hset : MarkUndone C id =
        C.set i ⟨e.ID, e.CreatedAt, none, e.Text, e.Author, e.Type_⟩ := by
      rw [MarkUndone_eq_updFirst]
      exact updFirst_at _ id C i e hi hid hfirst
    refine ⟨hcomp.trans hset, ?_⟩
    intro hnone
    rw [hcomp, hset]
    have : (⟨e.ID, e.CreatedAt, none, e.Text, e.Author, e.Type_⟩ : Entry) = e := by
      cases e
      simp only [Entry.mk.injEq, true_and, and_true]
      exact hnone.symm
    rw [this]
    exact set_same C i e hi

/-- Witness for C8: a completed todo comes back with `completed_at` absent,
an open one comes back unchanged, and an absent id changes nothing. -/
theorem C8_MarkUndone_after_MarkDone_witness :
    MarkUndone (MarkDone [⟨"a", 1, none, "n", "u", TypeNote⟩, ⟨"b", 2, some 3, "t", "u", TypeTodo⟩]
        "b" 9) "b"
      = [⟨"a", 1, none, "n", "u", TypeNote⟩, ⟨"b", 2, none, "t", "u", TypeTodo⟩] ∧
    MarkUndone (MarkDone [⟨"a", 1, none, "n", "u", TypeNote⟩, ⟨"b", 2, none, "t", "u", TypeTodo⟩]
        "b" 9) "b"
      = [⟨"a", 1, none, "n", "u", TypeNote⟩, ⟨"b", 2, none, "t", "u", TypeTodo⟩] ∧
    MarkUndone (MarkDone [⟨"a", 1, none, "n", "u", TypeNote⟩, ⟨"b", 2, some 3, "t", "u", TypeTodo⟩]
        "zz" 9) "zz"
      = [⟨"a", 1, none, "n", "u", TypeNote⟩, ⟨"b", 2, some 3, "t", "u", TypeTodo⟩] :=
  ⟨((C8_MarkUndone_after_MarkDone _ "b" 9).2.2 1 ⟨"b", 2, some 3, "t", "u", TypeTodo⟩
      rfl rfl (by intro j e' hj hje; interval_cases j; cases hje; decide)).1,
    ((C8_MarkUndone_after_MarkDone _ "b" 9).2.2 1 ⟨"b", 2, none, "t", "u", TypeTodo⟩
      rfl rfl (by intro j e' hj hje; interval_cases j; cases hje; decide)).2 rfl,
    (C8_MarkUndone_after_MarkDone _ "zz" 9).2.1 (by decide)⟩

/-- C9: when some entry of `C` has the given id, `EditEntry` stores `newText`
verbatim (no mention parsing, no re-tokenisation) on the first entry whose id
matches, keeps that entry's id, created_at, completed_at, author and type,
and leaves every other position, the length and the order unchanged. -/
theorem C9_EditEntry_sets_text_verbatim (C : List Entry) (id newText : String)
    (h : ∃ e ∈ C, e.ID = id) :
    (EditEntry C id newText).length = C.length ∧
      ∃ i e, C[i]? = some e ∧ e.ID = id ∧
        (∀ (j : Nat) (e' : Entry), j < i → C[j]? = some e' → e'.ID ≠ id) ∧
        EditEntry C id newText =
          C.set i ⟨e.ID, e.CreatedAt, e.CompletedAt, newText, e.Author, e.Type_⟩ ∧
        (EditEntry C id newText)[i]? =
          some ⟨e.ID, e.CreatedAt, e.CompletedAt, newText, e.Author, e.Type_⟩ ∧
        ∀ j : Nat, j ≠ i → (EditEntry C id newText)[j]? = C[j]? := by
  rw [EditEntry_eq_updFirst]
  refine ⟨updFirst_length _ id C, ?_⟩
  obtain ⟨i, e, hi, hid, hfirst, hset⟩ := updFirst_present
    (fun e => { e with Text := newText }) id C h
  refine ⟨i, e, hi, hid, hfirst, hset, ?_, ?_⟩
  · rw [hset]; exact getElem?_set_at C i e _ hi
  · intro j hj; rw [hset]; exact getElem?_set_other C i j _ hj

/-- Witness for C9: a text with a mention and a run of spaces is stored as is,
and the author is not touched. -/
theorem C9_EditEntry_sets_text_verbatim_witness :
    (∃ e ∈ [(⟨"a", 1, none, "n", "u", TypeNote⟩ : Entry), ⟨"b", 2, some 3, "t", "u", TypeTodo⟩],
        e.ID = "b") ∧
      EditEntry [⟨"a", 1, none, "n", "u", TypeNote⟩, ⟨"b", 2, some 3, "t", "u", TypeTodo⟩]
          "b" "call  @Bob   now"
        = [⟨"a", 1, none, "n", "u", TypeNote⟩, ⟨"b", 2, some 3, "call  @Bob   now", "u", TypeTodo⟩] ∧
      (EditEntry [⟨"a", 1, none, "n", "u", TypeNote⟩, ⟨"b", 2, some 3, "t", "u", TypeTodo⟩]
          "b" "call  @Bob   now").length
        = [(⟨"a", 1, none, "n", "u", TypeNote⟩ : Entry), ⟨"b", 2, some 3, "t", "u", TypeTodo⟩].length :=
  ⟨⟨_, List.mem_cons_of_mem _ (List.mem_cons_self _ _), rfl⟩, by decide,
    (C9_EditEntry_sets_text_verbatim _ "b" "call  @Bob   now"
      ⟨_, List.mem_cons_of_mem _ (List.mem_cons_self _ _), rfl⟩).1⟩

/-- C10: `RemoveEntry` returns the order-preserving subsequence of `C` made
of the entries whose id differs from the given id, each unchanged; when the
ids of `C` are pairwise distinct and the id occurs in `C`, exactly one entry
is deleted, so the length drops by one. -/
theorem C10_RemoveEntry_filters_id (C : List Entry) (id : String) :
    RemoveEntry C id = C.filter (fun e => decide (e.ID ≠ id)) ∧
      (RemoveEntry C id).Sublist C ∧
      (∀ e, e ∈ RemoveEntry C id ↔ e ∈ C ∧ e.ID ≠ id) ∧
      ((C.map Entry.ID).Nodup → id ∈ C.map Entry.ID →
        (RemoveEntry C id).length = C.length - 1 ∧
          (RemoveEntry C id).length + 1 = C.length) := by
  refine ⟨RemoveEntry_eq_filter C id, ?_, ?_, ?_⟩
  · rw [RemoveEntry_eq_filter]; exact List.filter_sublist C
  · intro e; rw [RemoveEntry_eq_filter]; simp [List.mem_filter]
  · intro hn hin
    have := RemoveEntry_length_of_nodup C id hn hin
    exact ⟨by omega, this⟩

/-- Witness for C10: removing the middle entry of three distinct ids. -/
theorem C10_RemoveEntry_filters_id_witness :
    RemoveEntry [⟨"a", 1, none, "n", "u", TypeNote⟩, ⟨"b", 2, some 3, "t", "u", TypeTodo⟩,
        ⟨"c", 4, none, "w", "v", TypeTodo⟩] "b"
      = [⟨"a", 1, none, "n", "u", TypeNote⟩, ⟨"c", 4, none, "w", "v", TypeTodo⟩] ∧
    (RemoveEntry [⟨"a", 1, none, "n", "u", TypeNote⟩, ⟨"b", 2, some 3, "t", "u", TypeTodo⟩,
        ⟨"c", 4, none, "w", "v", TypeTodo⟩] "b").length = 3 - 1 :=
  ⟨by decide, ((C10_RemoveEntry_filters_id _ "b").2.2.2 (by decide) (by decide)).1⟩

/-! ## Claims on mention parsing in `AddEntry` -/

/-- Counterexample to C3 as stated: for the todo text `x @Bob @Al` the first
mention token has remainder `Bob`, but `AddEntry` stores the author `Al`. -/
theorem C3_first_mention_counterexample :
    (∃ p ∈ Fields "x @Bob @Al", mentionToken p = true) ∧
      specFirstMentionAuthor "x @Bob @Al" = some "Bob" ∧
      (AddEntry [] "x @Bob @Al" "User" TypeTodo "id1" 0).map Entry.Author = ["Al"] ∧
      (AddEntry [] "x @Bob @Al" "User" TypeTodo "id1" 0).map (fun e => some e.Author) ≠
        [specFirstMentionAuthor "x @Bob @Al"] := by
  decide

/-- C3 (amended): for a todo-type `AddEntry` whose text has at least one
mention token, the new entry's author is the remainder, after the `@`, of the
LAST mention token of the text, whatever the passed author; when the text has
exactly one mention token, that token is also the first one. -/
theorem C3_AddEntry_todo_author_is_last_mention (entries : List Entry)
    (text author newID : String) (now : Time)
    (h : ∃ p ∈ Fields text, mentionToken p = true) :
    ∃ e m, AddEntry entries text author TypeTodo newID now = entries ++ [e] ∧
      ((Fields text).filter mentionToken).getLast? = some m ∧
      m.data = '@' :: e.Author.data ∧ e.Author = sliceFrom1 m ∧
      (((Fields text).filter mentionToken).length = 1 →
        (Fields text).find? mentionToken = some m) := by
  have hne : (Fields text).filter mentionToken ≠ [] := by
    obtain ⟨p, hp, hm⟩ := h
    exact List.ne_nil_of_mem (List.mem_filter.mpr ⟨hp, hm⟩)
  have hlast := List.getLast?_eq_getLast _ hne
  have hmem : ((Fields text).filter mentionToken).getLast hne ∈
      (Fields text).filter mentionToken := List.getLast_mem hne
  obtain ⟨c, r, hd⟩ := (mentionToken_iff _).mp (List.mem_filter.mp hmem).2
  refine ⟨_, ((Fields text).filter mentionToken).getLast hne, rfl, hlast, ?_, ?_, ?_⟩
  · simp only [finalAuthorText_todo_at text author (Contains_of_mention text h), hlast,
      Option.map_some', Option.getD_some, sliceFrom1, hd, List.drop_succ_cons, List.drop_zero]
  · simp only [finalAuthorText_todo_at text author (Contains_of_mention text h), hlast,
      Option.map_some', Option.getD_some]
  · intro hone
    obtain ⟨a, ha⟩ := List.length_eq_one.mp hone
    have hm : ((Fields text).filter mentionToken).getLast hne = a := by
      have h2 : some (((Fields text).filter mentionToken).getLast hne) = some a := by
        rw [← hlast, ha]; rfl
      exact Option.some.inj h2
    rw [hm]
    exact find?_of_filter_singleton _ a ha

/-- Witness for C3 (amended): `Buy milk @Alice` by `User` gets author `Alice`. -/
theorem C3_AddEntry_todo_author_is_last_mention_witness :
    (∃ p ∈ Fields "Buy milk @Alice", mentionToken p = true) ∧
      (AddEntry [] "Buy milk @Alice" "User" TypeTodo "id1" 0).map Entry.Author = ["Alice"] ∧
      ∃ e m, AddEntry [] "Buy milk @Alice" "User" TypeTodo "id1" 0 = [] ++ [e] ∧
        ((Fields "Buy milk @Alice").filter mentionToken).getLast? = some m ∧
        m.data = '@' :: e.Author.data ∧ e.Author = sliceFrom1 m ∧
        (((Fields "Buy milk @Alice").filter mentionToken).length = 1 →
          (Fields "Buy milk @Alice").find? mentionToken = some m) :=
  ⟨by decide, by decide,
    C3_AddEntry_todo_author_is_last_mention [] "Buy milk @Alice" "User" "id1" 0 (by decide)⟩

/-- Counterexample to C4 as stated: for the todo text `a @b @c` the tokens
other than the first mention token are `a` and `@c`, but `AddEntry` stores the
text `a`, without the later mention token. -/
theorem C4_later_mention_counterexample :
    (∃ p ∈ Fields "a @b @c", mentionToken p = true) ∧
      Join (dropFirstMention (Fields "a @b @c")) " " = "a @c" ∧
      (AddEntry [] "a @b @c" "User" TypeTodo "id1" 0).map Entry.Text = ["a"] ∧
      (AddEntry [] "a @b @c" "User" TypeTodo "id1" 0).map Entry.Text ≠
        [Join (dropFirstMention (Fields "a @b @c")) " "] := by
  decide

/-- C4 (amended): for a todo-type `AddEntry` whose text has at least one
mention token, the stored text is the sequence of all whitespace-delimited
tokens of the input that are not mention tokens, in their original order,
joined by single spaces: every mention token is removed, every other token is
kept. When the text has exactly one mention token this is the input's tokens
without the first mention token. -/
theorem C4_AddEntry_todo_text_drops_all_mentions (entries : List Entry)
    (text author newID : String) (now : Time)
    (h : ∃ p ∈ Fields text, mentionToken p = true) :
    ∃ e, AddEntry entries text author TypeTodo newID now = entries ++ [e] ∧
      e.Text = Join ((Fields text).filter (fun p => !mentionToken p)) " " ∧
      Fields e.Text = (Fields text).filter (fun p => !mentionToken p) ∧
      (((Fields text).filter mentionToken).length = 1 →
        e.Text = Join (dropFirstMention (Fields text)) " ") := by
  have htxt : (finalAuthorText text author TypeTodo).2 =
      Join ((Fields text).filter (fun p => !mentionToken p)) " " := by
    rw [finalAuthorText_todo_at text author (Contains_of_mention text h)]
  refine ⟨_, rfl, htxt, ?_, ?_⟩
  · show Fields (finalAuthorText text author TypeTodo).2 = _
    rw [htxt]
    exact Fields_Join _ (fun t ht => Fields_tokens text t (List.mem_filter.mp ht).1)
  · intro hone
    show (finalAuthorText text author TypeTodo).2 = _
    rw [htxt, filter_not_eq_dropFirstMention _ hone]

/-- Witness for C4 (amended): runs of spaces collapse, both mentions go. -/
theorem C4_AddEntry_todo_text_drops_all_mentions_witness :
    (∃ p ∈ Fields "Buy  milk @Alice now @Bob", mentionToken p = true) ∧
      (AddEntry [] "Buy  milk @Alice now @Bob" "User" TypeTodo "id1" 0).map Entry.Text
        = ["Buy milk now"] ∧
      ∃ e, AddEntry [] "Buy  milk @Alice now @Bob" "User" TypeTodo "id1" 0 = [] ++ [e] ∧
        e.Text = Join ((Fields "Buy  milk @Alice now @Bob").filter
          (fun p => !mentionToken p)) " " ∧
        Fields e.Text = (Fields "Buy  milk @Alice now @Bob").filter
          (fun p => !mentionToken p) ∧
        (((Fields "Buy  milk @Alice now @Bob").filter mentionToken).length = 1 →
          e.Text = Join (dropFirstMention (Fields "Buy  milk @Alice now @Bob")) " ") :=
  ⟨by decide, by decide,
    C4_AddEntry_todo_text_drops_all_mentions [] "Buy  milk @Alice now @Bob" "User" "id1" 0
      (by decide)⟩

/-- C6: for every todo-type `AddEntry` and every input text, the text stored
on the new entry has no mention: none of its whitespace-delimited tokens
begins with `@` and has length greater than one (in characters, and in bytes
as the code tests it). -/
theorem C6_AddEntry_todo_text_has_no_mention (entries : List Entry)
    (text author newID : String) (now : Time) :
    ∃ e, AddEntry entries text author TypeTodo newID now = entries ++ [e] ∧
      ∀ p ∈ Fields e.Text, mentionToken p = false ∧
        ¬ (HasPrefix p "@" = true ∧ len p > 1) ∧
        ¬ (p.data.head? = some '@' ∧ p.length > 1) := by
  have key : ∀ p ∈ Fields (finalAuthorText text author TypeTodo).2, mentionToken p = false := by
    intro p hp
    cases hc : Contains text "@" with
    | true =>
      rw [finalAuthorText_todo_at text author hc] at hp
      rw [Fields_Join _ (fun t ht => Fields_tokens text t (List.mem_filter.mp ht).1)] at hp
      simpa using (List.mem_filter.mp hp).2
    | false =>
      rw [finalAuthorText_todo_no_at text author hc] at hp
      cases hm : mentionToken p with
      | false => rfl
      | true =>
        have := Contains_of_mention text ⟨p, hp, hm⟩
        rw [hc] at this
        cases this
  refine ⟨_, rfl, ?_⟩
  intro p hp
  have hm : mentionToken p = false := key p hp
  refine ⟨hm, ?_, ?_⟩
  · intro hh
    have := cond_eq_mentionToken p
    rw [hh.1, decide_eq_true hh.2, hm] at this
    cases this
  · rintro ⟨hhead, hlen⟩
    have hex : ∃ c r, p.data = '@' :: c :: r := by
      obtain ⟨cs⟩ := p
      cases cs with
      | nil => cases hhead
      | cons a as =>
        cases as with
        | nil => simp [String.length] at hlen
        | cons b bs =>
          have : a = '@' := by simpa using hhead
          exact ⟨b, bs, by rw [this]⟩
    rw [(mentionToken_iff p).mpr hex] at hm
    cases hm

/-- Example for C6: `Task for @Bob` is stored as `Task for`. -/
theorem C6_AddEntry_todo_text_has_no_mention_witness :
    (AddEntry [] "Task for @Bob" "User" TypeTodo "id1" 0).map Entry.Text = ["Task for"] ∧
      ∃ e, AddEntry [] "Task for @Bob" "User" TypeTodo "id1" 0 = [] ++ [e] ∧
        ∀ p ∈ Fields e.Text, mentionToken p = false ∧
          ¬ (HasPrefix p "@" = true ∧ len p > 1) ∧
          ¬ (p.data.head? = some '@' ∧ p.length > 1) :=
  ⟨by decide, C6_AddEntry_todo_text_has_no_mention [] "Task for @Bob" "User" "id1" 0⟩

/-! ## Lemmas on bulk removal, filtering and export -/

theorem RemoveEntries_eq_filter (C : List Entry) (S : List String) :
    RemoveEntries C S = C.filter (fun e => decide (e.ID ∉ S)) := by
  induction C with
  | nil => rfl
  | cons e es ih =>
    by_cases he : e.ID ∈ S <;> simp [RemoveEntries, he, ih]

theorem Contains_iff_infix (s sub : String) :
    Contains s sub = true ↔ sub.data <:+: s.data := by
  unfold Contains
  rw [List.any_eq_true, List.infix_iff_prefix_suffix]
  constructor
  · rintro ⟨t, ht, hp⟩
    exact ⟨t, List.isPrefixOf_iff_prefix.mp hp, (List.mem_tails t s.data).mp ht⟩
  · rintro ⟨t, hp, ht⟩
    exact ⟨t, (List.mem_tails t s.data).mpr ht, List.isPrefixOf_iff_prefix.mpr hp⟩

theorem filterLoop_eq_filter (ToLower : String → String) (q : String) (C : List Entry) :
    filterLoop ToLower q C = C.filter (fun e =>
      Contains (ToLower e.Text) (ToLower q) || Contains (ToLower e.Author) (ToLower q)) := by
  induction C with
  | nil => rfl
  | cons e es ih =>
    cases h : (Contains (ToLower e.Text) (ToLower q) ||
      Contains (ToLower e.Author) (ToLower q)) <;>
      simp only [filterLoop, List.filter_cons, h, ih, Bool.false_eq_true, if_false, if_true]

theorem partitionLoop_eq (es notes todos : List Entry) :
    partitionLoop es notes todos =
      (notes ++ es.filter (fun e => decide (e.Type_ = TypeNote)),
        todos ++ es.filter (fun e => decide (e.Type_ = TypeTodo))) := by
  induction es generalizing notes todos with
  | nil => simp [partitionLoop]
  | cons e rest ih =>
    by_cases hn : e.Type_ = TypeNote
    · have ht : ¬ e.Type_ = TypeTodo := by rw [hn]; decide
      have d1 : decide (e.Type_ = TypeNote) = true := decide_eq_true hn
      have d2 : decide (e.Type_ = TypeTodo) = false := decide_eq_false ht
      rw [partitionLoop, if_pos hn, ih]
      simp only [List.filter_cons, d1, d2, if_true, Bool.false_eq_true, if_false,
        List.append_assoc, List.singleton_append]
    · have d1 : decide (e.Type_ = TypeNote) = false := decide_eq_false hn
      by_cases ht : e.Type_ = TypeTodo
      · have d2 : decide (e.Type_ = TypeTodo) = true := decide_eq_true ht
        rw [partitionLoop, if_neg hn, if_pos ht, ih]
        simp only [List.filter_cons, d1, d2, if_true, Bool.false_eq_true, if_false,
          List.append_assoc, List.singleton_append]
      · have d2 : decide (e.Type_ = TypeTodo) = false := decide_eq_false ht
        rw [partitionLoop, if_neg hn, if_neg ht, ih]
        simp only [List.filter_cons, d1, d2, Bool.false_eq_true, if_false]

theorem writeNotes_eq (fmtDate : Time → String) (ns : List Entry) (sb : String) :
    writeNotes fmtDate ns sb = sb ++ concatLines (ns.map (noteLine fmtDate)) := by
  induction ns generalizing sb with
  | nil => simp [writeNotes, concatLines]
  | cons n rest ih =>
    simp only [writeNotes, ih, List.map_cons, concatLines, noteLine, String.append_assoc]

theorem writeTodos_eq (fmtDate : Time → String) (ts : List Entry) (sb : String) :
    writeTodos fmtDate ts sb = sb ++ concatLines (ts.map (todoLine fmtDate)) := by
  induction ts generalizing sb with
  | nil => simp [writeTodos, concatLines]
  | cons t rest ih =>
    have hc : (if t.CompletedAt ≠ none then "x" else " ") =
        (if t.CompletedAt.isSome = true then "x" else " ") := by
      cases t.CompletedAt <;> rfl
    simp only [writeTodos, ih, List.map_cons, concatLines, todoLine, String.append_assoc, hc]

theorem updFirst_map_ID (f : Entry → Entry) (id : String) (C : List Entry)
    (hf : ∀ e, (f e).ID = e.ID) : (updFirst f id C).map Entry.ID = C.map Entry.ID := by
  induction C with
  | nil => rfl
  | cons e es ih =>
    by_cases he : e.ID = id
    · simp [updFirst, he, hf]
    · simp [updFirst, he, ih]

/-! ## Claims on bulk removal, filtering, export and id uniqueness -/

/-- C11: `RemoveEntries` returns exactly the order-preserving subsequence of
`C` made of the entries whose id is not in the id set, each unchanged; so
for three entries `[a, b, c]` with distinct ids and the set of the ids of `a`
and `c`, the result is exactly `[b]`. -/
theorem C11_RemoveEntries_filters_ids (C : List Entry) (S : List String) :
    RemoveEntries C S = C.filter (fun e => decide (e.ID ∉ S)) ∧
      (RemoveEntries C S).Sublist C ∧
      (∀ e, e ∈ RemoveEntries C S ↔ e ∈ C ∧ e.ID ∉ S) ∧
      (∀ a b c : Entry, a.ID ≠ b.ID → b.ID ≠ c.ID → a.ID ≠ c.ID →
        RemoveEntries [a, b, c] [a.ID, c.ID] = [b]) := by
  refine ⟨RemoveEntries_eq_filter C S, ?_, ?_, ?_⟩
  · rw [RemoveEntries_eq_filter]; exact List.filter_sublist C
  · intro e; rw [RemoveEntries_eq_filter]; simp [List.mem_filter]
  · intro a b c hab hbc _
    have hba : ¬ b.ID = a.ID := fun h => hab h.symm
    simp [RemoveEntries, hba, hbc]

/-- Example for C11: of three todos, removing the first and the third leaves
the second with all its fields. -/
theorem C11_RemoveEntries_filters_ids_witness :
    RemoveEntries [⟨"a", 1, none, "Task 1", "u", TypeTodo⟩, ⟨"b", 2, some 3, "Task 2", "v", TypeTodo⟩,
        ⟨"c", 4, none, "Task 3", "u", TypeTodo⟩] ["a", "c"]
      = [⟨"b", 2, some 3, "Task 2", "v", TypeTodo⟩] :=
  (C11_RemoveEntries_filters_ids [] []).2.2.2 ⟨"a", 1, none, "Task 1", "u", TypeTodo⟩
    ⟨"b", 2, some 3, "Task 2", "v", TypeTodo⟩ ⟨"c", 4, none, "Task 3", "u", TypeTodo⟩
    (by decide) (by decide) (by decide)

/-- C12: `FilterEntries` with the empty query returns `C`; with a non-empty
query `q` it returns the order-preserving subsequence of `C` made of exactly
the entries whose lower-cased text or lower-cased author contains the
lower-cased `q` as a substring. Hence a query matching no text and no author
gives the empty result, and `app` selects an entry with text `Apple`
(`ToLower` being any function that lower-cases these two words as Go does). -/
theorem C12_FilterEntries_substring_match (ToLower : String → String) (C : List Entry) :
    FilterEntries ToLower C "" = C ∧
      (∀ q : String, q ≠ "" →
        FilterEntries ToLower C q = C.filter (fun e =>
            Contains (ToLower e.Text) (ToLower q) || Contains (ToLower e.Author) (ToLower q)) ∧
          (FilterEntries ToLower C q).Sublist C ∧
          (∀ e, e ∈ FilterEntries ToLower C q ↔ e ∈ C ∧
            ((ToLower q).data <:+: (ToLower e.Text).data ∨
              (ToLower q).data <:+: (ToLower e.Author).data)) ∧
          ((∀ e ∈ C, ¬ (ToLower q).data <:+: (ToLower e.Text).data ∧
              ¬ (ToLower q).data <:+: (ToLower e.Author).data) →
            FilterEntries ToLower C q = [])) ∧
      (ToLower "app" = "app" → ToLower "Apple" = "apple" →
        ∀ e ∈ C, e.Text = "Apple" → e ∈ FilterEntries ToLower C "app") := by
  have hmem : ∀ q : String, q ≠ "" → ∀ e, e ∈ FilterEntries ToLower C q ↔ e ∈ C ∧
      ((ToLower q).data <:+: (ToLower e.Text).data ∨
        (ToLower q).data <:+: (ToLower e.Author).data) := by
    intro q hq e
    simp only [FilterEntries, if_neg hq, filterLoop_eq_filter, List.mem_filter,
      Bool.or_eq_true, Contains_iff_infix]
  refine ⟨by simp [FilterEntries], ?_, ?_⟩
  · intro q hq
    have heq : FilterEntries ToLower C q = C.filter (fun e =>
        Contains (ToLower e.Text) (ToLower q) || Contains (ToLower e.Author) (ToLower q)) := by
      simp only [FilterEntries, if_neg hq, filterLoop_eq_filter]
    refine ⟨heq, ?_, hmem q hq, ?_⟩
    · rw [heq]; exact List.filter_sublist C
    · intro hno
      apply List.eq_nil_iff_forall_not_mem.mpr
      intro e he
      obtain ⟨heC, hor⟩ := (hmem q hq e).mp he
      rcases hor with h | h
      · exact (hno e heC).1 h
      · exact (hno e heC).2 h
  · intro h1 h2 e he htxt
    refine (hmem "app" (by decide) e).mpr ⟨he, Or.inl ?_⟩
    rw [h1, htxt, h2]
    exact ⟨[], ['l', 'e'], rfl⟩

/-- Example for C12 with the ASCII lower-casing: `app` selects `Apple` and not
`Banana`, and `zzz` selects nothing. -/
theorem C12_FilterEntries_substring_match_witness :
    FilterEntries asciiToLower [⟨"a", 1, none, "Apple", "User", TypeNote⟩,
        ⟨"b", 2, none, "Banana", "User", TypeNote⟩] "app"
      = [⟨"a", 1, none, "Apple", "User", TypeNote⟩] ∧
    FilterEntries asciiToLower [⟨"a", 1, none, "Apple", "User", TypeNote⟩,
        ⟨"b", 2, none, "Banana", "User", TypeNote⟩] "zzz" = [] ∧
    (⟨"a", 1, none, "Apple", "User", TypeNote⟩ : Entry) ∈
      FilterEntries asciiToLower [⟨"a", 1, none, "Apple", "User", TypeNote⟩,
        ⟨"b", 2, none, "Banana", "User", TypeNote⟩] "app" :=
  ⟨by decide, by decide,
    (C12_FilterEntries_substring_match asciiToLower _).2.2 (by decide) (by decide) _
      (List.mem_cons_self _ _) rfl⟩

/-- C13: the export is the `Context` heading, then one line per note of `C`
in collection order (or the one placeholder line `_No notes._` when `C` has
no note), then the `Tasks` heading, then one line per todo of `C` in
collection order (or the one placeholder line `_No tasks._` when `C` has no
todo); the checkbox of a todo line is `x` exactly when its `completed_at` is
present and a space otherwise. For the empty collection it is the two
headings with the two placeholder lines. -/
theorem C13_GenerateExportMarkdown_layout (fmtDate : Time → String) (C : List Entry) :
    GenerateExportMarkdown fmtDate C =
        "# Context\n\n" ++
        (if C.filter (fun e => decide (e.Type_ = TypeNote)) = [] then "_No notes._\n"
          else concatLines ((C.filter (fun e => decide (e.Type_ = TypeNote))).map
            (noteLine fmtDate))) ++
        "\n# Tasks\n\n" ++
        (if C.filter (fun e => decide (e.Type_ = TypeTodo)) = [] then "_No tasks._\n"
          else concatLines ((C.filter (fun e => decide (e.Type_ = TypeTodo))).map
            (todoLine fmtDate))) ∧
      GenerateExportMarkdown fmtDate [] =
        "# Context\n\n_No notes._\n\n# Tasks\n\n_No tasks._\n" ∧
      (∀ t : Entry, (t.CompletedAt ≠ none → todoLine fmtDate t =
          "- [x] **" ++ t.Author ++ "** (" ++ fmtDate t.CreatedAt ++ "): " ++ t.Text ++ "\n") ∧
        (t.CompletedAt = none → todoLine fmtDate t =
          "- [ ] **" ++ t.Author ++ "** (" ++ fmtDate t.CreatedAt ++ "): " ++ t.Text ++ "\n")) := by
  refine ⟨?_, rfl, ?_⟩
  · unfold GenerateExportMarkdown
    simp only [partitionLoop_eq, List.nil_append, List.length_eq_zero, writeNotes_eq,
      writeTodos_eq, String.empty_append]
    by_cases h1 : C.filter (fun e => decide (e.Type_ = TypeNote)) = [] <;>
      by_cases h2 : C.filter (fun e => decide (e.Type_ = TypeTodo)) = [] <;>
      simp only [h1, h2, if_true, if_false, String.append_assoc]
  · intro t
    constructor
    · intro h
      have : t.CompletedAt.isSome = true := by
        cases hc : t.CompletedAt with
        | none => exact absurd hc h
        | some v => rfl
      simp only [todoLine, this, if_true]
      rfl
    · intro h
      simp only [todoLine, h, Option.isSome_none, Bool.false_eq_true, if_false]
      rfl

/-- Example for C13: one note, one completed and one open todo. -/
theorem C13_GenerateExportMarkdown_layout_witness :
    GenerateExportMarkdown (fun t => if t = 1 then "2024-01-01 10:00" else "2024-01-02 11:30")
        [⟨"a", 1, none, "Note 1", "User", TypeNote⟩, ⟨"b", 2, some 3, "Task 1", "Bob", TypeTodo⟩,
          ⟨"c", 2, none, "Task 2", "User", TypeTodo⟩]
      = "# Context\n\n- **User** (2024-01-01 10:00): Note 1\n\n# Tasks\n\n" ++
        "- [x] **Bob** (2024-01-02 11:30): Task 1\n- [ ] **User** (2024-01-02 11:30): Task 2\n" ∧
    GenerateExportMarkdown (fun _ => "") [] =
      "# Context\n\n_No notes._\n\n# Tasks\n\n_No tasks._\n" :=
  ⟨by decide, (C13_GenerateExportMarkdown_layout (fun _ => "") []).2.1⟩

/-- C14: id uniqueness is an invariant of the mutation operations. When the
ids of `C` are pairwise distinct, the results of `MarkDone`, `MarkUndone`,
`EditEntry`, `RemoveEntry` and `RemoveEntries` have pairwise distinct ids and
no id that is not in `C`, and the result of `AddEntry` has pairwise distinct
ids whenever the generated id is not an id of `C`. -/
theorem C14_ids_stay_distinct (C : List Entry) (hn : (C.map Entry.ID).Nodup) :
    (∀ (id : String) (now : Time), ((MarkDone C id now).map Entry.ID).Nodup ∧
        ∀ x ∈ (MarkDone C id now).map Entry.ID, x ∈ C.map Entry.ID) ∧
      (∀ id : String, ((MarkUndone C id).map Entry.ID).Nodup ∧
        ∀ x ∈ (MarkUndone C id).map Entry.ID, x ∈ C.map Entry.ID) ∧
      (∀ id newText : String, ((EditEntry C id newText).map Entry.ID).Nodup ∧
        ∀ x ∈ (EditEntry C id newText).map Entry.ID, x ∈ C.map Entry.ID) ∧
      (∀ id : String, ((RemoveEntry C id).map Entry.ID).Nodup ∧
        ∀ x ∈ (RemoveEntry C id).map Entry.ID, x ∈ C.map Entry.ID) ∧
      (∀ S : List String, ((RemoveEntries C S).map Entry.ID).Nodup ∧
        ∀ x ∈ (RemoveEntries C S).map Entry.ID, x ∈ C.map Entry.ID) ∧
      (∀ (text author : String) (entryType : EntryType) (newID : String) (now : Time),
        newID ∉ C.map Entry.ID →
        ((AddEntry C text author entryType newID now).map Entry.ID).Nodup) := by
  refine ⟨?_, ?_, ?_, ?_, ?_, ?_⟩
  · intro id now
    have h := updFirst_map_ID (fun e => { e with CompletedAt := some now }) id C (fun _ => rfl)
    rw [MarkDone_eq_updFirst, h]
    exact ⟨hn, fun x hx => hx⟩
  · intro id
    have h := updFirst_map_ID (fun e => { e with CompletedAt := none }) id C (fun _ => rfl)
    rw [MarkUndone_eq_updFirst, h]
    exact ⟨hn, fun x hx => hx⟩
  · intro id newText
    have h := updFirst_map_ID (fun e => { e with Text := newText }) id C (fun _ => rfl)
    rw [EditEntry_eq_updFirst, h]
    exact ⟨hn, fun x hx => hx⟩
  · intro id
    have hs : ((RemoveEntry C id).map Entry.ID).Sublist (C.map Entry.ID) := by
      rw [RemoveEntry_eq_filter]; exact (List.filter_sublist C).map Entry.ID
    exact ⟨hn.sublist hs, fun x hx => hs.subset hx⟩
  · intro S
    have hs : ((RemoveEntries C S).map Entry.ID).Sublist (C.map Entry.ID) := by
      rw [RemoveEntries_eq_filter]; exact (List.filter_sublist C).map Entry.ID
    exact ⟨hn.sublist hs, fun x hx => hs.subset hx⟩
  · intro text author entryType newID now hfresh
    simp only [AddEntry, List.map_append, List.map_cons, List.map_nil]
    rw [List.nodup_append]
    refine ⟨hn, List.nodup_singleton _, ?_⟩
    intro a ha hb
    rw [List.mem_singleton] at hb
    exact hfresh (hb ▸ ha)

/-- Witness for C14 on a two-entry collection with ids `a` and `b`. -/
theorem C14_ids_stay_distinct_witness :
    ([(⟨"a", 1, none, "n", "u", TypeNote⟩ : Entry), ⟨"b", 2, none, "t", "u", TypeTodo⟩].map
        Entry.ID).Nodup ∧
      ((MarkDone [⟨"a", 1, none, "n", "u", TypeNote⟩, ⟨"b", 2, none, "t", "u", TypeTodo⟩] "b" 5).map
        Entry.ID).Nodup ∧
      ((AddEntry [⟨"a", 1, none, "n", "u", TypeNote⟩, ⟨"b", 2, none, "t", "u", TypeTodo⟩]
        "x" "u" TypeTodo "c" 7).map Entry.ID).Nodup :=
  ⟨by decide,
    ((C14_ids_stay_distinct _ (by decide)).1 "b" 5).1,
    (C14_ids_stay_distinct _ (by decide)).2.2.2.2.2 "x" "u" TypeTodo "c" 7 (by decide)⟩

/-! ## Lemmas on the state machine -/

theorem save_ideal (env : Env) (m : model) (h : IdealBackend env) :
    ∃ msg', save env m = { m with msg := msg' } := by
  unfold save reloadEntries
  cases hs : env.saveErr with
  | none => exact ⟨m.msg, by simp [h m.entries]⟩
  | some err => exact ⟨"Error saving file: " ++ err, by simp [h m.entries]⟩

theorem splitAux_head (sep : Char) (cs cur : List Char) :
    ∃ rest, splitAux sep cs cur =
      (cur.reverse ++ cs.takeWhile (fun c => decide (c ≠ sep))) :: rest := by
  induction cs generalizing cur with
  | nil => exact ⟨[], by simp [splitAux]⟩
  | cons c cs ih =>
    by_cases hc : c = sep
    · exact ⟨splitAux sep cs [], by simp [splitAux, hc]⟩
    · obtain ⟨rest, hrest⟩ := ih (c :: cur)
      exact ⟨rest, by simp [splitAux, hc, hrest]⟩

theorem Split_head_isPrefix (s cmd : String) (h : (Split s ' ').head? = some cmd) :
    cmd.data <+: s.data := by
  obtain ⟨rest, hrest⟩ := splitAux_head ' ' s.data []
  unfold Split at h
  rw [hrest] at h
  simp only [List.reverse_nil, List.nil_append, List.map_cons, List.head?_cons,
    Option.some.injEq] at h
  rw [← h]
  exact List.takeWhile_prefix _

theorem Split_cons (s cmd : String) (h : (Split s ' ').head? = some cmd) :
    ∃ rest, Split s ' ' = cmd :: rest := by
  cases hs : Split s ' ' with
  | nil => rw [hs] at h; cases h
  | cons a rest =>
    rw [hs] at h
    exact ⟨rest, by rw [Option.some.inj h]⟩

theorem index_of_bounds (l : List Entry) (i : Int) (h0 : 0 ≤ i) (h1 : i < (l.length : Int)) :
    ∃ e, index l i = some e ∧ e ∈ l := by
  have hlt : i.toNat < l.length := by omega
  refine ⟨l[i.toNat], ?_, List.getElem_mem _⟩
  simp [index, h0, List.getElem?_eq_getElem hlt]

theorem HasPrefix_of_head (val cmd : String) (h : (Split val ' ').head? = some cmd)
    (hc : HasPrefix cmd "/" = true) : HasPrefix val "/" = true := by
  unfold HasPrefix at *
  rw [List.isPrefixOf_iff_prefix] at *
  exact hc.trans (Split_head_isPrefix val cmd h)

theorem commandMode_slash (cmd : String) (mode : selectMode)
    (h : commandMode cmd = some mode) : HasPrefix cmd "/" = true := by
  unfold commandMode at h
  split_ifs at h with h1 h2 h3 h4
  · rcases h1 with rfl | rfl <;> decide
  · subst h2; decide
  · subst h3; decide
  · rcases h4 with rfl | rfl <;> decide

theorem runCommand_mode (env : Env) (m : model) (val cmd : String) (rest : List String)
    (mode : selectMode) (hs : Split val ' ' = cmd :: rest)
    (hmode : commandMode cmd = some mode) :
    runCommand env m val = some (prepareTaskSelection m mode, Cmd.nil) := by
  unfold runCommand
  rw [hs]
  dsimp only
  unfold commandMode at hmode
  split_ifs at hmode with h1 h2 h3 h4
  · have hm : mode = selectMode.modeDone := (Option.some.inj hmode).symm
    subst hm
    have e1 : ¬ cmd = "/exit" := by rcases h1 with rfl | rfl <;> decide
    have e2 : ¬ (cmd = "/todo" ∨ cmd = "/t") := by rcases h1 with rfl | rfl <;> decide
    rw [if_neg e1, if_neg e2, if_pos h1]
  · have hm : mode = selectMode.modeUndone := (Option.some.inj hmode).symm
    subst hm
    have e1 : ¬ cmd = "/exit" := by subst h2; decide
    have e2 : ¬ (cmd = "/todo" ∨ cmd = "/t") := by subst h2; decide
    rw [if_neg e1, if_neg e2, if_neg h1, if_pos h2]
  · have hm : mode = selectMode.modeRemove := (Option.some.inj hmode).symm
    subst hm
    have e1 : ¬ cmd = "/exit" := by subst h3; decide
    have e2 : ¬ (cmd = "/todo" ∨ cmd = "/t") := by subst h3; decide
    rw [if_neg e1, if_neg e2, if_neg h1, if_neg h2, if_pos h3]
  · have hm : mode = selectMode.modeEdit := (Option.some.inj hmode).symm
    subst hm
    have e1 : ¬ cmd = "/exit" := by rcases h4 with rfl | rfl <;> decide
    have e2 : ¬ (cmd = "/todo" ∨ cmd = "/t") := by rcases h4 with rfl | rfl <;> decide
    rw [if_neg e1, if_neg e2, if_neg h1, if_neg h2, if_neg h3, if_pos h4]

theorem prepareTaskSelection_spec (m : model) (mode : selectMode) :
    (prepareTaskSelection m mode).entries = m.entries ∧
      (prepareTaskSelection m mode).selectionMode = mode ∧
      (prepareTaskSelection m mode).selectedIDs = [] ∧
      (prepareTaskSelection m mode).author = m.author ∧
      (prepareTaskSelection m mode).textInput = m.textInput ∧
      (poolOf mode m.entries = [] →
        (prepareTaskSelection m mode).state = m.state ∧
          (prepareTaskSelection m mode).msg = "Nothing to select!" ∧
          (prepareTaskSelection m mode).selectList = []) ∧
      (poolOf mode m.entries ≠ [] →
        (prepareTaskSelection m mode).state = appState.stateSelectTask ∧
          (prepareTaskSelection m mode).selectList = poolOf mode m.entries ∧
          (prepareTaskSelection m mode).cursor = 0 ∧
          (prepareTaskSelection m mode).msg = m.msg) := by
  cases mode with
  | modeDone =>
    by_cases hp : GetActiveTodos m.entries = [] <;> simp [prepareTaskSelection, poolOf, hp]
  | modeUndone =>
    by_cases hp : GetCompletedTodos m.entries = [] <;> simp [prepareTaskSelection, poolOf, hp]
  | modeEdit =>
    by_cases hp : GetActiveItems m.entries = [] <;> simp [prepareTaskSelection, poolOf, hp]
  | modeRemove =>
    by_cases hp : GetActiveItems m.entries = [] <;> simp [prepareTaskSelection, poolOf, hp]

theorem finishSelect_ideal (env : Env) (m : model) (h : IdealBackend env) :
    ∃ r, finishSelect env m = some (r, Cmd.nil) ∧ r.state = appState.stateViewMain ∧
      r.entries = m.entries ∧ r.cursor = m.cursor ∧ r.selectList = m.selectList ∧
      r.selectionMode = m.selectionMode := by
  obtain ⟨msg', hsave⟩ := save_ideal env m h
  refine ⟨{ { m with msg := msg' } with state := appState.stateViewMain }, ?_, rfl, rfl, rfl,
    rfl, rfl⟩
  unfold finishSelect
  rw [hsave]

theorem Update_select (env : Env) (m : model) (ty : KeyType) (str : String)
    (hstate : m.state = appState.stateSelectTask) (hstr : str ≠ "ctrl+c") :
    Update env m (Msg.KeyMsg ty str) = updateTaskSelect env m (Msg.KeyMsg ty str) := by
  simp only [Update, if_neg hstr, updateByState, hstate]

theorem Update_edit (env : Env) (m : model) (ty : KeyType) (str : String)
    (hstate : m.state = appState.stateEditTaskInput) (hstr : str ≠ "ctrl+c") :
    Update env m (Msg.KeyMsg ty str) = updateEditTask env m (Msg.KeyMsg ty str) := by
  simp only [Update, if_neg hstr, updateByState, hstate]

theorem updateTaskSelect_enter_remove (env : Env) (m : model) (ty : KeyType)
    (hmode : m.selectionMode = selectMode.modeRemove) :
    updateTaskSelect env m (Msg.KeyMsg ty "enter") =
      if m.selectedIDs.length = 0 then
        match index m.selectList m.cursor with
        | none => none
        | some sel => finishSelect env { m with entries := RemoveEntry m.entries sel.ID }
      else finishSelect env { m with entries := RemoveEntries m.entries m.selectedIDs } := by
  have a1 : ¬ ("enter" = "up" ∨ "enter" = "k") := by decide
  have a2 : ¬ ("enter" = "down" ∨ "enter" = "j") := by decide
  have a3 : ¬ ("enter" = " ") := by decide
  unfold updateTaskSelect
  dsimp only
  rw [if_neg a1, if_neg a2, if_neg a3, if_pos rfl, if_pos hmode]

theorem updateTaskSelect_enter_other (env : Env) (m : model) (ty : KeyType)
    (hmode : m.selectionMode ≠ selectMode.modeRemove) :
    updateTaskSelect env m (Msg.KeyMsg ty "enter") =
      match index m.selectList m.cursor with
      | none => none
      | some selected =>
        if m.selectionMode = selectMode.modeDone then
          finishSelect env { m with entries := MarkDone m.entries selected.ID env.now }
        else if m.selectionMode = selectMode.modeUndone then
          finishSelect env { m with entries := MarkUndone m.entries selected.ID }
        else if m.selectionMode = selectMode.modeEdit then
          some ({ m with state := appState.stateEditTaskInput,
                         textInput := env.tiSetValue selected.Text }, Cmd.nil)
        else finishSelect env m := by
  have a1 : ¬ ("enter" = "up" ∨ "enter" = "k") := by decide
  have a2 : ¬ ("enter" = "down" ∨ "enter" = "j") := by decide
  have a3 : ¬ ("enter" = " ") := by decide
  unfold updateTaskSelect
  dsimp only
  rw [if_neg a1, if_neg a2, if_neg a3, if_pos rfl, if_neg hmode]

/-! ## The invariant of the state machine -/

theorem updFirst_mem (f : Entry → Entry) (id : String) (C : List Entry) :
    ∀ x ∈ updFirst f id C, x ∈ C ∨ ∃ e ∈ C, e.ID = id ∧ x = f e := by
  induction C with
  | nil => intro x hx; cases hx
  | cons c cs ih =>
    intro x hx
    by_cases hc : c.ID = id
    · simp only [updFirst, if_pos hc, List.mem_cons] at hx
      rcases hx with hx | hx
      · exact Or.inr ⟨c, List.mem_cons_self c cs, hc, hx⟩
      · exact Or.inl (List.mem_cons_of_mem c hx)
    · simp only [updFirst, if_neg hc, List.mem_cons] at hx
      rcases hx with hx | hx
      · exact Or.inl (hx ▸ List.mem_cons_self c cs)
      · rcases ih x hx with h | ⟨e, he, hid, hxe⟩
        · exact Or.inl (List.mem_cons_of_mem c h)
        · exact Or.inr ⟨e, List.mem_cons_of_mem c he, hid, hxe⟩

theorem NotesOpen_updFirst (f : Entry → Entry) (id : String) (C : List Entry)
    (h : NotesOpen C)
    (hf : ∀ e ∈ C, e.ID = id → (f e).Type_ = TypeNote → (f e).CompletedAt = none) :
    NotesOpen (updFirst f id C) := by
  intro x hx hnote
  rcases updFirst_mem f id C x hx with hx | ⟨e, he, hid, hxe⟩
  · exact h x hx hnote
  · subst hxe
    exact hf e he hid hnote

theorem NotesOpen_of_subset (l C : List Entry) (hsub : ∀ x ∈ l, x ∈ C) (h : NotesOpen C) :
    NotesOpen l :=
  fun x hx hnote => h x (hsub x hx) hnote

theorem NotesOpen_AddEntry (C : List Entry) (text author : String) (entryType : EntryType)
    (newID : String) (now : Time) (h : NotesOpen C) :
    NotesOpen (AddEntry C text author entryType newID now) := by
  intro x hx hnote
  simp only [AddEntry, List.mem_append, List.mem_singleton] at hx
  rcases hx with hx | hx
  · exact h x hx hnote
  · rw [hx]

theorem Nodup_AddEntry (C : List Entry) (text author : String) (entryType : EntryType)
    (newID : String) (now : Time) (hn : (C.map Entry.ID).Nodup)
    (hfresh : newID ∉ C.map Entry.ID) :
    ((AddEntry C text author entryType newID now).map Entry.ID).Nodup := by
  simp only [AddEntry, List.map_append, List.map_cons, List.map_nil]
  rw [List.nodup_append]
  refine ⟨hn, List.nodup_singleton _, ?_⟩
  intro a ha hb
  rw [List.mem_singleton] at hb
  exact hfresh (hb ▸ ha)

theorem GetActiveTodos_mem (C : List Entry) :
    ∀ s ∈ GetActiveTodos C, s ∈ C ∧ s.Type_ = TypeTodo := by
  induction C with
  | nil => intro s hs; cases hs
  | cons c cs ih =>
    intro s hs
    by_cases hc : c.Type_ = TypeTodo ∧ c.CompletedAt = none
    · simp only [GetActiveTodos, if_pos hc, List.mem_cons] at hs
      rcases hs with hs | hs
      · exact ⟨hs ▸ List.mem_cons_self c cs, hs ▸ hc.1⟩
      · exact ⟨List.mem_cons_of_mem c (ih s hs).1, (ih s hs).2⟩
    · simp only [GetActiveTodos, if_neg hc] at hs
      exact ⟨List.mem_cons_of_mem c (ih s hs).1, (ih s hs).2⟩

theorem Inv_idle (r : model)
    (hs : r.state = appState.stateViewMain ∨ r.state = appState.stateHistoryView)
    (hn : (r.entries.map Entry.ID).Nodup) (ho : NotesOpen r.entries) : Inv r := by
  refine ⟨hn, ho, ?_, ?_⟩
  · intro h
    rcases hs with hs | hs <;> rcases h with h | h <;> rw [hs] at h <;> cases h
  · intro h
    rcases hs with hs | hs <;> rw [hs] at h <;> cases h

theorem Inv_save (env : Env) (m : model) (hideal : IdealBackend env) (h : Inv m) :
    Inv (save env m) := by
  obtain ⟨msg', hsave⟩ := save_ideal env m hideal
  rw [hsave]
  exact h

theorem Inv_prepare (m : model) (mode : selectMode) (h : Inv m)
    (hstate : m.state = appState.stateViewMain) : Inv (prepareTaskSelection m mode) := by
  obtain ⟨he, hm, _, _, _, hempty, hfull⟩ := prepareTaskSelection_spec m mode
  by_cases hp : poolOf mode m.entries = []
  · obtain ⟨hs, _, _⟩ := hempty hp
    exact Inv_idle _ (Or.inl (hs.trans hstate)) (by rw [he]; exact h.1) (by rw [he]; exact h.2.1)
  · obtain ⟨hs, hl, hc, _⟩ := hfull hp
    refine ⟨by rw [he]; exact h.1, by rw [he]; exact h.2.1, ?_, ?_⟩
    · intro _
      rw [hc, hl]
      refine ⟨le_refl 0, ?_⟩
      have : 0 < (poolOf mode m.entries).length := List.length_pos.mpr hp
      omega
    · intro _ hmd s hsel
      rw [hm] at hmd
      rw [hl, hmd] at hsel
      rw [he]
      exact GetActiveTodos_mem m.entries s hsel

theorem Nodup_updFirst (f : Entry → Entry) (id : String) (C : List Entry)
    (hf : ∀ e, (f e).ID = e.ID) (hn : (C.map Entry.ID).Nodup) :
    ((updFirst f id C).map Entry.ID).Nodup := by
  rw [updFirst_map_ID f id C hf]
  exact hn

theorem RemoveEntry_subset (C : List Entry) (id : String) :
    ∀ x ∈ RemoveEntry C id, x ∈ C := by
  intro x hx
  rw [RemoveEntry_eq_filter] at hx
  exact (List.mem_filter.mp hx).1

theorem RemoveEntries_subset (C : List Entry) (S : List String) :
    ∀ x ∈ RemoveEntries C S, x ∈ C := by
  intro x hx
  rw [RemoveEntries_eq_filter] at hx
  exact (List.mem_filter.mp hx).1

theorem Nodup_RemoveEntry (C : List Entry) (id : String) (hn : (C.map Entry.ID).Nodup) :
    ((RemoveEntry C id).map Entry.ID).Nodup := by
  rw [RemoveEntry_eq_filter]
  exact hn.sublist ((List.filter_sublist C).map Entry.ID)

theorem Nodup_RemoveEntries (C : List Entry) (S : List String)
    (hn : (C.map Entry.ID).Nodup) : ((RemoveEntries C S).map Entry.ID).Nodup := by
  rw [RemoveEntries_eq_filter]
  exact hn.sublist ((List.filter_sublist C).map Entry.ID)

theorem NotesOpen_MarkDone_todo (C : List Entry) (now : Time) (sel : Entry)
    (hn : (C.map Entry.ID).Nodup) (ho : NotesOpen C) (hsel : sel ∈ C)
    (ht : sel.Type_ = TypeTodo) : NotesOpen (MarkDone C sel.ID now) := by
  rw [MarkDone_eq_updFirst]
  apply NotesOpen_updFirst _ _ _ ho
  intro e he hid hnote
  have hes : e = sel := List.inj_on_of_nodup_map hn he hsel hid
  subst hes
  have hnote' : e.Type_ = TypeNote := hnote
  rw [ht] at hnote'
  exact absurd hnote' (by decide)

theorem NotesOpen_MarkUndone (C : List Entry) (id : String) (ho : NotesOpen C) :
    NotesOpen (MarkUndone C id) := by
  rw [MarkUndone_eq_updFirst]
  exact NotesOpen_updFirst _ _ _ ho (fun _ _ _ _ => rfl)

theorem NotesOpen_EditEntry (C : List Entry) (id newText : String) (ho : NotesOpen C) :
    NotesOpen (EditEntry C id newText) := by
  rw [EditEntry_eq_updFirst]
  exact NotesOpen_updFirst _ _ _ ho (fun e he _ hnote => ho e he hnote)

theorem Inv_finishSelect (env : Env) (m : model) (hideal : IdealBackend env)
    (hn : (m.entries.map Entry.ID).Nodup) (ho : NotesOpen m.entries) :
    ∃ r, finishSelect env m = some r ∧ Inv r.1 := by
  obtain ⟨r, hr, hst, hen, _⟩ := finishSelect_ideal env m hideal
  exact ⟨(r, Cmd.nil), hr, Inv_idle r (Or.inl hst) (by rw [hen]; exact hn) (by rw [hen]; exact ho)⟩

theorem Inv_cursor (m : model) (c : Int) (h : Inv m)
    (hc : 0 ≤ c ∧ c < (m.selectList.length : Int)) : Inv { m with cursor := c } :=
  ⟨h.1, h.2.1, fun _ => hc, h.2.2.2⟩

theorem Inv_todoCommand (env : Env) (m : model) (val : String) (h : Inv m)
    (hstate : m.state = appState.stateViewMain) (hideal : IdealBackend env)
    (hfresh : env.newID ∉ m.entries.map Entry.ID) : Inv (todoCommand env m val) := by
  have key : ∀ es : List Entry, (es.map Entry.ID).Nodup → NotesOpen es →
      Inv (save env { m with entries := es }) := fun es hn ho =>
    Inv_save env _ hideal (Inv_idle _ (Or.inl hstate) hn ho)
  unfold todoCommand
  dsimp only
  by_cases c : (if TrimPrefix val "/todo " = "" then TrimPrefix val "/t "
      else TrimPrefix val "/todo ") ≠ ""
  · rw [if_pos c]
    exact key _ (Nodup_AddEntry _ _ _ _ _ _ h.1 hfresh) (NotesOpen_AddEntry _ _ _ _ _ _ h.2.1)
  · rw [if_neg c]; exact h

theorem Inv_authorCommand (m : model) (val : String) (h : Inv m) :
    Inv (authorCommand m val) := by
  unfold authorCommand
  dsimp only
  split
  · exact h
  · exact h

theorem Inv_exportCommand (env : Env) (m : model) (h : Inv m) :
    Inv (exportCommand env m) := by
  unfold exportCommand
  dsimp only
  split
  · exact h
  · exact h

theorem Inv_runCommand (env : Env) (m : model) (val : String) (h : Inv m)
    (hstate : m.state = appState.stateViewMain) (hideal : IdealBackend env)
    (hfresh : env.newID ∉ m.entries.map Entry.ID) :
    ∃ r, runCommand env m val = some r ∧ Inv r.1 := by
  obtain ⟨rest, hrest⟩ := splitAux_head ' ' val.data []
  have hne : Split val ' ' ≠ [] := by
    unfold Split
    rw [hrest]
    exact List.cons_ne_nil _ _
  cases hsp : Split val ' ' with
  | nil => exact absurd hsp hne
  | cons cmd rest' =>
    unfold runCommand
    rw [hsp]
    dsimp only
    by_cases c1 : cmd = "/exit"
    · rw [if_pos c1]; exact ⟨_, rfl, h⟩
    rw [if_neg c1]
    by_cases c2 : cmd = "/todo" ∨ cmd = "/t"
    · rw [if_pos c2]; exact ⟨_, rfl, Inv_todoCommand env m val h hstate hideal hfresh⟩
    rw [if_neg c2]
    by_cases c3 : cmd = "/done" ∨ cmd = "/d"
    · rw [if_pos c3]; exact ⟨_, rfl, Inv_prepare m _ h hstate⟩
    rw [if_neg c3]
    by_cases c4 : cmd = "/undone"
    · rw [if_pos c4]; exact ⟨_, rfl, Inv_prepare m _ h hstate⟩
    rw [if_neg c4]
    by_cases c5 : cmd = "/rm"
    · rw [if_pos c5]; exact ⟨_, rfl, Inv_prepare m _ h hstate⟩
    rw [if_neg c5]
    by_cases c6 : cmd = "/edit" ∨ cmd = "/e"
    · rw [if_pos c6]; exact ⟨_, rfl, Inv_prepare m _ h hstate⟩
    rw [if_neg c6]
    by_cases c7 : cmd = "/dhist"
    · rw [if_pos c7]; exact ⟨_, rfl, Inv_idle _ (Or.inr rfl) h.1 h.2.1⟩
    rw [if_neg c7]
    by_cases c8 : cmd = "/author"
    · rw [if_pos c8]; exact ⟨_, rfl, Inv_authorCommand m val h⟩
    rw [if_neg c8]
    by_cases c9 : cmd = "/export"
    · rw [if_pos c9]; exact ⟨_, rfl, Inv_exportCommand env m h⟩
    rw [if_neg c9]
    by_cases c10 : cmd = "/help"
    · rw [if_pos c10]; exact ⟨_, rfl, h⟩
    rw [if_neg c10]
    exact ⟨_, rfl, h⟩

theorem Inv_updateMain (env : Env) (m : model) (msg : Msg) (h : Inv m)
    (hstate : m.state = appState.stateViewMain) (hideal : IdealBackend env)
    (hfresh : env.newID ∉ m.entries.map Entry.ID) :
    ∃ r, updateMain env m msg = some r ∧ Inv r.1 := by
  cases msg with
  | KeyMsg ty str =>
    cases ty
    case KeyEnter =>
      unfold updateMain
      dsimp only
      split_ifs
      · exact Inv_runCommand env { m with msg := "", textInput := "" } m.textInput h hstate
          hideal hfresh
      · exact ⟨_, rfl, Inv_save env _ hideal (Inv_idle _ (Or.inl hstate)
          (Nodup_AddEntry _ _ _ _ _ _ h.1 hfresh) (NotesOpen_AddEntry _ _ _ _ _ _ h.2.1))⟩
      · exact ⟨_, rfl, h⟩
    all_goals exact ⟨_, rfl, h⟩
  | WindowSizeMsg w hh => exact ⟨_, rfl, h⟩
  | Other => exact ⟨_, rfl, h⟩

theorem Inv_updateTaskSelect (env : Env) (m : model) (msg : Msg) (h : Inv m)
    (hstate : m.state = appState.stateSelectTask) (hideal : IdealBackend env) :
    ∃ r, updateTaskSelect env m msg = some r ∧ Inv r.1 := by
  have hb := h.2.2.1 (Or.inl hstate)
  obtain ⟨sel, hsel, hselmem⟩ := index_of_bounds m.selectList m.cursor hb.1 hb.2
  cases msg with
  | WindowSizeMsg w hh => exact ⟨_, rfl, h⟩
  | Other => exact ⟨_, rfl, h⟩
  | KeyMsg ty str =>
    unfold updateTaskSelect
    dsimp only
    rw [hsel]
    dsimp only
    by_cases c1 : str = "up" ∨ str = "k"
    · rw [if_pos c1]
      by_cases hc : m.cursor > 0
      · rw [if_pos hc]
        exact ⟨_, rfl, Inv_cursor m _ h ⟨by omega, by omega⟩⟩
      · rw [if_neg hc]
        exact ⟨_, rfl, h⟩
    rw [if_neg c1]
    by_cases c2 : str = "down" ∨ str = "j"
    · rw [if_pos c2]
      by_cases hc : m.cursor < (m.selectList.length : Int) - 1
      · rw [if_pos hc]
        exact ⟨_, rfl, Inv_cursor m _ h ⟨by omega, by omega⟩⟩
      · rw [if_neg hc]
        exact ⟨_, rfl, h⟩
    rw [if_neg c2]
    by_cases c3 : str = " "
    · rw [if_pos c3]
      by_cases hm : m.selectionMode = selectMode.modeRemove
      · rw [if_pos hm]
        by_cases ht : sel.ID ∈ m.selectedIDs
        · rw [if_pos ht]
          exact ⟨_, rfl, h⟩
        · rw [if_neg ht]
          exact ⟨_, rfl, h⟩
      · rw [if_neg hm]
        exact ⟨_, rfl, h⟩
    rw [if_neg c3]
    by_cases c4 : str = "enter"
    · rw [if_pos c4]
      by_cases hm : m.selectionMode = selectMode.modeRemove
      · rw [if_pos hm]
        by_cases hl : m.selectedIDs.length = 0
        · rw [if_pos hl]
          exact Inv_finishSelect env _ hideal (Nodup_RemoveEntry _ _ h.1)
            (NotesOpen_of_subset _ _ (RemoveEntry_subset _ _) h.2.1)
        · rw [if_neg hl]
          exact Inv_finishSelect env _ hideal (Nodup_RemoveEntries _ _ h.1)
            (NotesOpen_of_subset _ _ (RemoveEntries_subset _ _) h.2.1)
      · rw [if_neg hm]
        by_cases hd : m.selectionMode = selectMode.modeDone
        · rw [if_pos hd]
          have hs := h.2.2.2 hstate hd sel hselmem
          refine Inv_finishSelect env _ hideal ?_ ?_
          · show ((MarkDone m.entries sel.ID env.now).map Entry.ID).Nodup
            rw [MarkDone_eq_updFirst]
            exact Nodup_updFirst _ _ _ (fun _ => rfl) h.1
          · exact NotesOpen_MarkDone_todo m.entries env.now sel h.1 h.2.1 hs.1 hs.2
        · rw [if_neg hd]
          by_cases hu : m.selectionMode = selectMode.modeUndone
          · rw [if_pos hu]
            refine Inv_finishSelect env _ hideal ?_ ?_
            · show ((MarkUndone m.entries sel.ID).map Entry.ID).Nodup
              rw [MarkUndone_eq_updFirst]
              exact Nodup_updFirst _ _ _ (fun _ => rfl) h.1
            · exact NotesOpen_MarkUndone m.entries sel.ID h.2.1
          · rw [if_neg hu]
            by_cases he : m.selectionMode = selectMode.modeEdit
            · rw [if_pos he]
              refine ⟨_, rfl, h.1, h.2.1, fun _ => hb, ?_⟩
              intro hcontra
              cases hcontra
            · rw [if_neg he]
              exact Inv_finishSelect env _ hideal h.1 h.2.1
    rw [if_neg c4]
    by_cases c5 : str = "esc"
    · rw [if_pos c5]
      exact ⟨_, rfl, Inv_idle _ (Or.inl rfl) h.1 h.2.1⟩
    rw [if_neg c5]
    exact ⟨_, rfl, h⟩

theorem Inv_updateEditTask (env : Env) (m : model) (msg : Msg) (h : Inv m)
    (hstate : m.state = appState.stateEditTaskInput) (hideal : IdealBackend env) :
    ∃ r, updateEditTask env m msg = some r ∧ Inv r.1 := by
  have hb := h.2.2.1 (Or.inr hstate)
  obtain ⟨sel, hsel, _⟩ := index_of_bounds m.selectList m.cursor hb.1 hb.2
  cases msg with
  | WindowSizeMsg w hh => exact ⟨_, rfl, h⟩
  | Other => exact ⟨_, rfl, h⟩
  | KeyMsg ty str =>
    cases ty
    case KeyEnter =>
      unfold updateEditTask
      dsimp only
      rw [hsel]
      dsimp only
      obtain ⟨msg', hsave⟩ := save_ideal env
        { m with entries := EditEntry m.entries sel.ID m.textInput } hideal
      rw [hsave]
      refine ⟨_, rfl, Inv_idle _ (Or.inl rfl) ?_ ?_⟩
      · show ((EditEntry m.entries sel.ID m.textInput).map Entry.ID).Nodup
        rw [EditEntry_eq_updFirst]
        exact Nodup_updFirst _ _ _ (fun _ => rfl) h.1
      · exact NotesOpen_EditEntry m.entries sel.ID m.textInput h.2.1
    case KeyEsc => exact ⟨_, rfl, Inv_idle _ (Or.inl rfl) h.1 h.2.1⟩
    all_goals exact ⟨_, rfl, h⟩

theorem Inv_updateHistory (m : model) (msg : Msg) (h : Inv m) :
    ∃ r, updateHistory m msg = some r ∧ Inv r.1 := by
  cases msg with
  | WindowSizeMsg w hh => exact ⟨_, rfl, h⟩
  | Other => exact ⟨_, rfl, h⟩
  | KeyMsg ty str => exact ⟨_, rfl, Inv_idle _ (Or.inl rfl) h.1 h.2.1⟩

theorem Inv_updateByState (env : Env) (m : model) (msg : Msg) (h : Inv m)
    (hideal : IdealBackend env) (hfresh : env.newID ∉ m.entries.map Entry.ID) :
    ∃ r, updateByState env m msg = some r ∧ Inv r.1 := by
  unfold updateByState
  cases hs : m.state with
  | stateViewMain => exact Inv_updateMain env m msg h hs hideal hfresh
  | stateSelectTask => exact Inv_updateTaskSelect env m msg h hs hideal
  | stateEditTaskInput => exact Inv_updateEditTask env m msg h hs hideal
  | stateHistoryView => exact Inv_updateHistory m msg h

theorem Inv_Update (env : Env) (m : model) (msg : Msg) (h : Inv m)
    (hideal : IdealBackend env) (hfresh : env.newID ∉ m.entries.map Entry.ID) :
    ∃ r, Update env m msg = some r ∧ Inv r.1 := by
  cases msg with
  | WindowSizeMsg w hh => exact Inv_updateByState env m _ h hideal hfresh
  | Other => exact Inv_updateByState env m _ h hideal hfresh
  | KeyMsg ty str =>
    unfold Update
    dsimp only
    by_cases hc : str = "ctrl+c"
    · rw [if_pos hc]
      exact ⟨_, rfl, h⟩
    · rw [if_neg hc]
      exact Inv_updateByState env m _ h hideal hfresh

theorem Inv_run (evs : List (Env × Msg)) (m : model) (h : Inv m) (hf : FreshIdeal m evs) :
    ∃ m', run m evs = some m' ∧ Inv m' := by
  induction evs generalizing m with
  | nil => exact ⟨m, rfl, h⟩
  | cons ev rest ih =>
    obtain ⟨env, msg⟩ := ev
    obtain ⟨hideal, hfresh, hrest⟩ := hf
    obtain ⟨r, hr, hInv⟩ := Inv_Update env m msg h hideal hfresh
    rw [hr] at hrest
    obtain ⟨m', hm', hInv'⟩ := ih r.1 hInv hrest
    refine ⟨m', ?_, hInv'⟩
    show (match Update env m msg with
      | none => none
      | some r => run r.1 rest) = some m'
    rw [hr]
    exact hm'

/-! ## Claims on the interaction state machine -/

/-- C16 (the code at the failing input): with the long alias `/todo buy milk`
the text passed to `AddEntry` is `buy milk`, but with the short alias
`/t buy milk` it is the whole input `/t buy milk`, because
`TrimPrefix(val, "/todo ")` returns `val` unchanged and the fallback to
`"/t "` is guarded by `text == ""`. -/
theorem C16_short_alias_keeps_command_text :
    (Update exampleEnv (exampleMain [] "/todo buy milk")
        (Msg.KeyMsg KeyType.KeyEnter "enter")).map (fun r => r.1.entries)
      = some (AddEntry [] "buy milk" "User" TypeTodo "n1" 5) ∧
    (Update exampleEnv (exampleMain [] "/t buy milk")
        (Msg.KeyMsg KeyType.KeyEnter "enter")).map (fun r => r.1.entries)
      = some (AddEntry [] "/t buy milk" "User" TypeTodo "n1" 5) ∧
    AddEntry [] "/t buy milk" "User" TypeTodo "n1" 5 ≠
      AddEntry [] "buy milk" "User" TypeTodo "n1" 5 := by
  decide

/-- C17 (the code at the failing input): submitting exactly `/todo`, or
exactly `/t`, in the main state appends a todo whose text is the command
itself, because `TrimPrefix` returns the input unchanged when the input does
not start with the command followed by a space. -/
theorem C17_bare_command_adds_entry :
    (Update exampleEnv (exampleMain [] "/todo")
        (Msg.KeyMsg KeyType.KeyEnter "enter")).map (fun r => (r.1.entries, r.1.state))
      = some ([⟨"n1", 5, none, "/todo", "User", TypeTodo⟩], appState.stateViewMain) ∧
    (Update exampleEnv (exampleMain [] "/t")
        (Msg.KeyMsg KeyType.KeyEnter "enter")).map (fun r => (r.1.entries, r.1.state))
      = some ([⟨"n1", 5, none, "/t", "User", TypeTodo⟩], appState.stateViewMain) ∧
    (Update exampleEnv (exampleMain [] "/todo")
        (Msg.KeyMsg KeyType.KeyEnter "enter")).map (fun r => r.1.entries)
      ≠ some (exampleMain [] "/todo").entries := by
  decide

/-- C18: in the main state, submitting one of the commands done, undone,
remove and edit (the first space-delimited token of the input being `/done`
or `/d`, `/undone`, `/rm`, `/edit` or `/e`) leaves the collection unchanged;
with an empty pool (ActiveTodos, CompletedTodos, ActiveItems, ActiveItems
respectively) the state stays main and a non-empty notice is set, otherwise
the state becomes the selection state with that pool as selection list,
cursor 0, an empty toggled-id set and the mode of the command. -/
theorem C18_selection_commands (env : Env) (m : model) (cmd str : String)
    (mode : selectMode) (hstate : m.state = appState.stateViewMain)
    (hcmd : (Split m.textInput ' ').head? = some cmd)
    (hmode : commandMode cmd = some mode) (hstr : str ≠ "ctrl+c") :
    ∃ m', Update env m (Msg.KeyMsg KeyType.KeyEnter str) = some (m', Cmd.nil) ∧
      m'.entries = m.entries ∧ m'.selectionMode = mode ∧ m'.selectedIDs = [] ∧
      (poolOf mode m.entries = [] →
        m'.state = appState.stateViewMain ∧ m'.msg ≠ "" ∧
          m'.msg = "Nothing to select!") ∧
      (poolOf mode m.entries ≠ [] →
        m'.state = appState.stateSelectTask ∧ m'.selectList = poolOf mode m.entries ∧
          m'.cursor = 0) := by
  obtain ⟨rest, hrest⟩ := Split_cons m.textInput cmd hcmd
  have hpre : HasPrefix m.textInput "/" = true :=
    HasPrefix_of_head m.textInput cmd hcmd (commandMode_slash cmd mode hmode)
  have hrun := runCommand_mode env { m with msg := "", textInput := "" } m.textInput cmd rest
    mode hrest hmode
  have hupd : Update env m (Msg.KeyMsg KeyType.KeyEnter str) =
      some (prepareTaskSelection { m with msg := "", textInput := "" } mode, Cmd.nil) := by
    simp only [Update, hstr, if_false, updateByState, hstate, updateMain, hpre, if_true]
    rw [hstate] at hrun
    exact hrun
  obtain ⟨h1, h2, h3, _, _, h6, h7⟩ :=
    prepareTaskSelection_spec { m with msg := "", textInput := "" } mode
  refine ⟨_, hupd, h1, h2, h3, ?_, ?_⟩
  · intro hp
    obtain ⟨a, b, _⟩ := h6 hp
    refine ⟨a.trans hstate, ?_, b⟩
    rw [b]; decide
  · intro hp
    obtain ⟨a, b, c, _⟩ := h7 hp
    exact ⟨a, b, c⟩

/-- Witness for C18: `/done` with one open todo opens the selection on it,
and `/undone` on the same collection finds nothing to select. -/
theorem C18_selection_commands_witness :
    (∃ m', Update exampleEnv (exampleMain [⟨"a", 1, none, "t", "u", TypeTodo⟩] "/done")
        (Msg.KeyMsg KeyType.KeyEnter "enter") = some (m', Cmd.nil) ∧
      m'.entries = (exampleMain [⟨"a", 1, none, "t", "u", TypeTodo⟩] "/done").entries ∧
      m'.selectionMode = selectMode.modeDone ∧ m'.selectedIDs = [] ∧
      (poolOf selectMode.modeDone
          (exampleMain [⟨"a", 1, none, "t", "u", TypeTodo⟩] "/done").entries = [] →
        m'.state = appState.stateViewMain ∧ m'.msg ≠ "" ∧ m'.msg = "Nothing to select!") ∧
      (poolOf selectMode.modeDone
          (exampleMain [⟨"a", 1, none, "t", "u", TypeTodo⟩] "/done").entries ≠ [] →
        m'.state = appState.stateSelectTask ∧
          m'.selectList = poolOf selectMode.modeDone
            (exampleMain [⟨"a", 1, none, "t", "u", TypeTodo⟩] "/done").entries ∧
          m'.cursor = 0)) ∧
    (Update exampleEnv (exampleMain [⟨"a", 1, none, "t", "u", TypeTodo⟩] "/undone")
        (Msg.KeyMsg KeyType.KeyEnter "enter")).map (fun r => (r.1.state, r.1.msg))
      = some (appState.stateViewMain, "Nothing to select!") :=
  ⟨C18_selection_commands exampleEnv (exampleMain [⟨"a", 1, none, "t", "u", TypeTodo⟩] "/done")
      "/done" "enter" selectMode.modeDone rfl (by decide) (by decide) (by decide),
    by decide⟩

/-- C19: in the selection state in remove mode with a valid cursor, confirm
(with persist-and-reload returning the saved collection) yields the main
state and, when no id was toggled, the collection `RemoveEntry` of the id of
the pool entry at the cursor; otherwise the collection `RemoveEntries` of the
toggled set, in which the entries carrying the id at the cursor survive
unless that id was toggled. -/
theorem C19_confirm_remove (env : Env) (m : model) (ty : KeyType)
    (hstate : m.state = appState.stateSelectTask)
    (hmode : m.selectionMode = selectMode.modeRemove)
    (h0 : 0 ≤ m.cursor) (h1 : m.cursor < (m.selectList.length : Int))
    (hideal : IdealBackend env) :
    ∃ sel m', index m.selectList m.cursor = some sel ∧
      Update env m (Msg.KeyMsg ty "enter") = some (m', Cmd.nil) ∧
      m'.state = appState.stateViewMain ∧
      (m.selectedIDs = [] → m'.entries = RemoveEntry m.entries sel.ID) ∧
      (m.selectedIDs ≠ [] →
        m'.entries = RemoveEntries m.entries m.selectedIDs ∧
          (sel.ID ∉ m.selectedIDs → ∀ e ∈ m.entries, e.ID = sel.ID → e ∈ m'.entries) ∧
          (sel.ID ∈ m.selectedIDs → ∀ e ∈ m'.entries, e.ID ≠ sel.ID)) := by
  obtain ⟨sel, hsel, _⟩ := index_of_bounds m.selectList m.cursor h0 h1
  have hU := Update_select env m ty "enter" hstate (by decide)
  rw [updateTaskSelect_enter_remove env m ty hmode] at hU
  by_cases hsid : m.selectedIDs = []
  · obtain ⟨r, hr, hst, hen, _⟩ :=
      finishSelect_ideal env { m with entries := RemoveEntry m.entries sel.ID } hideal
    have hl : m.selectedIDs.length = 0 := by rw [hsid]; rfl
    rw [if_pos hl, hsel] at hU
    exact ⟨sel, r, hsel, hU.trans hr, hst, fun _ => hen, fun h => absurd hsid h⟩
  · obtain ⟨r, hr, hst, hen, _⟩ :=
      finishSelect_ideal env { m with entries := RemoveEntries m.entries m.selectedIDs } hideal
    have hl : ¬ m.selectedIDs.length = 0 := fun h => hsid (List.length_eq_zero.mp h)
    rw [if_neg hl] at hU
    refine ⟨sel, r, hsel, hU.trans hr, hst, fun h => absurd h hsid, fun _ => ⟨hen, ?_, ?_⟩⟩
    · intro hnot e he heq
      rw [hen]
      show e ∈ RemoveEntries m.entries m.selectedIDs
      rw [RemoveEntries_eq_filter]
      exact List.mem_filter.mpr ⟨he, by simpa [heq] using hnot⟩
    · intro hin e he heq
      rw [hen] at he
      have he' : e ∈ RemoveEntries m.entries m.selectedIDs := he
      rw [RemoveEntries_eq_filter] at he'
      have := (List.mem_filter.mp he').2
      rw [heq] at this
      simp [hin] at this

/-- Witness for C19: with nothing toggled the entry at the cursor goes; the
hypotheses hold for a remove selection over two items with the cursor on the
second. -/
theorem C19_confirm_remove_witness :
    (Update exampleEnv
        { state := appState.stateSelectTask, author := "User",
          entries := [⟨"a", 1, none, "n", "u", TypeNote⟩, ⟨"b", 2, none, "t", "u", TypeTodo⟩],
          textInput := "", cursor := 1,
          selectList := [⟨"a", 1, none, "n", "u", TypeNote⟩, ⟨"b", 2, none, "t", "u", TypeTodo⟩],
          selectedIDs := [], selectionMode := selectMode.modeRemove, msg := "" }
        (Msg.KeyMsg KeyType.KeyEnter "enter")).map (fun r => (r.1.state, r.1.entries))
      = some (appState.stateViewMain, [⟨"a", 1, none, "n", "u", TypeNote⟩]) ∧
    ∃ sel m', index [(⟨"a", 1, none, "n", "u", TypeNote⟩ : Entry),
          ⟨"b", 2, none, "t", "u", TypeTodo⟩] 1 = some sel ∧
      Update exampleEnv
        { state := appState.stateSelectTask, author := "User",
          entries := [⟨"a", 1, none, "n", "u", TypeNote⟩, ⟨"b", 2, none, "t", "u", TypeTodo⟩],
          textInput := "", cursor := 1,
          selectList := [⟨"a", 1, none, "n", "u", TypeNote⟩, ⟨"b", 2, none, "t", "u", TypeTodo⟩],
          selectedIDs := [], selectionMode := selectMode.modeRemove, msg := "" }
        (Msg.KeyMsg KeyType.KeyEnter "enter") = some (m', Cmd.nil) ∧
      m'.state = appState.stateViewMain :=
  ⟨by decide,
    (C19_confirm_remove exampleEnv
      { state := appState.stateSelectTask, author := "User",
        entries := [⟨"a", 1, none, "n", "u", TypeNote⟩, ⟨"b", 2, none, "t", "u", TypeTodo⟩],
        textInput := "", cursor := 1,
        selectList := [⟨"a", 1, none, "n", "u", TypeNote⟩, ⟨"b", 2, none, "t", "u", TypeTodo⟩],
        selectedIDs := [], selectionMode := selectMode.modeRemove, msg := "" }
      KeyType.KeyEnter rfl rfl (by decide) (by decide) (fun _ => rfl)).imp
      (fun _ h => h.imp (fun _ h' => ⟨h'.1, h'.2.1, h'.2.2.1⟩))⟩

set_option maxRecDepth 20000 in
/-- Counterexample to C20 as stated: for a pool entry whose text has
`CharLimit + 1` characters and a text input that keeps `CharLimit` characters,
confirm in edit mode leaves 256 characters in the input buffer, which is not
the text of the entry. -/
theorem C20_long_text_is_cut_counterexample :
    longText.length = 257 ∧
      (exampleSelect [⟨"a", 1, none, longText, "u", TypeTodo⟩]
        [⟨"a", 1, none, longText, "u", TypeTodo⟩] selectMode.modeEdit 0).state
        = appState.stateSelectTask ∧
      index [(⟨"a", 1, none, longText, "u", TypeTodo⟩ : Entry)] 0
        = some ⟨"a", 1, none, longText, "u", TypeTodo⟩ ∧
      (Update exampleEnv
        (exampleSelect [⟨"a", 1, none, longText, "u", TypeTodo⟩]
          [⟨"a", 1, none, longText, "u", TypeTodo⟩] selectMode.modeEdit 0)
        (Msg.KeyMsg KeyType.KeyEnter "enter")).map
          (fun r => (r.1.state, r.1.textInput.length))
        = some (appState.stateEditTaskInput, 256) ∧
      (Update exampleEnv
        (exampleSelect [⟨"a", 1, none, longText, "u", TypeTodo⟩]
          [⟨"a", 1, none, longText, "u", TypeTodo⟩] selectMode.modeEdit 0)
        (Msg.KeyMsg KeyType.KeyEnter "enter")).map (fun r => r.1.textInput)
        ≠ some longText := by
  decide

/-- C20 (amended): in the selection state in edit mode with a valid cursor,
confirm moves to the edit-input state with the input buffer equal to what the
text input keeps of the text of the pool entry at the cursor when set to it
(the text itself whenever the input keeps it unchanged), the collection
unchanged. From there, whatever text `t` the input buffer then holds: confirm
(with persist-and-reload returning the saved collection) yields the main
state, an empty input buffer and the collection `EditEntry` of the id of that
selected entry with `t`; cancel yields the main state, an empty input buffer
and the collection unchanged; any other key only changes the input buffer. -/
theorem C20_edit_flow (env : Env) (m : model) (ty : KeyType)
    (hstate : m.state = appState.stateSelectTask)
    (hmode : m.selectionMode = selectMode.modeEdit)
    (h0 : 0 ≤ m.cursor) (h1 : m.cursor < (m.selectList.length : Int)) :
    ∃ sel m1, index m.selectList m.cursor = some sel ∧
      Update env m (Msg.KeyMsg ty "enter") = some (m1, Cmd.nil) ∧
      m1.state = appState.stateEditTaskInput ∧
      m1.textInput = env.tiSetValue sel.Text ∧
      (env.tiSetValue sel.Text = sel.Text → m1.textInput = sel.Text) ∧
      m1.entries = m.entries ∧ m1.selectList = m.selectList ∧ m1.cursor = m.cursor ∧
      ∀ (env2 : Env) (t str : String), str ≠ "ctrl+c" →
        (IdealBackend env2 →
          ∃ m3, Update env2 { m1 with textInput := t } (Msg.KeyMsg KeyType.KeyEnter str) =
              some (m3, Cmd.nil) ∧
            m3.state = appState.stateViewMain ∧ m3.textInput = "" ∧
            m3.entries = EditEntry m.entries sel.ID t) ∧
        (∃ m3, Update env2 { m1 with textInput := t } (Msg.KeyMsg KeyType.KeyEsc str) =
              some (m3, Cmd.nil) ∧
            m3.state = appState.stateViewMain ∧ m3.textInput = "" ∧
            m3.entries = m.entries) ∧
        (∀ ty2 : KeyType, ty2 ≠ KeyType.KeyEnter → ty2 ≠ KeyType.KeyEsc →
          Update env2 { m1 with textInput := t } (Msg.KeyMsg ty2 str) =
            some ({ m1 with textInput := env2.tiUpdate t (Msg.KeyMsg ty2 str) },
              Cmd.TextInput)) := by
  obtain ⟨sel, hsel, _⟩ := index_of_bounds m.selectList m.cursor h0 h1
  have hne : m.selectionMode ≠ selectMode.modeRemove := by rw [hmode]; decide
  have hd : ¬ m.selectionMode = selectMode.modeDone := by rw [hmode]; decide
  have hu : ¬ m.selectionMode = selectMode.modeUndone := by rw [hmode]; decide
  have hU := Update_select env m ty "enter" hstate (by decide)
  rw [updateTaskSelect_enter_other env m ty hne, hsel] at hU
  dsimp only at hU
  rw [if_neg hd, if_neg hu, if_pos hmode] at hU
  refine ⟨sel, { m with state := appState.stateEditTaskInput,
                        textInput := env.tiSetValue sel.Text }, hsel, hU,
    rfl, rfl, fun hkeep => hkeep, rfl, rfl, rfl, ?_⟩
  intro env2 t str hstr
  refine ⟨?_, ?_, ?_⟩
  · intro hideal
    obtain ⟨msg', hsave⟩ := save_ideal env2
      { m with state := appState.stateEditTaskInput, textInput := t,
               entries := EditEntry m.entries sel.ID t } hideal
    refine ⟨{ m with state := appState.stateViewMain, textInput := "",
                     entries := EditEntry m.entries sel.ID t, msg := msg' }, ?_, rfl, rfl, rfl⟩
    rw [Update_edit env2 _ KeyType.KeyEnter str rfl hstr]
    unfold updateEditTask
    dsimp only
    rw [hsel]
    dsimp only
    rw [hsave]
  · refine ⟨{ m with state := appState.stateViewMain, textInput := "" }, ?_, rfl, rfl, rfl⟩
    rw [Update_edit env2 _ KeyType.KeyEsc str rfl hstr]
    rfl
  · intro ty2 hE hX
    rw [Update_edit env2 _ ty2 str rfl hstr]
    unfold updateEditTask
    cases ty2 <;> first | exact absurd rfl hE | exact absurd rfl hX | rfl

/-- Witness for C20 (amended): editing the only open todo, whose text the
input keeps. The selection confirm opens the edit input on its text; typing a
new text and confirming stores it verbatim and returns to the main state. -/
theorem C20_edit_flow_witness :
    run (exampleSelect [⟨"a", 1, none, "old", "u", TypeTodo⟩] [⟨"a", 1, none, "old", "u", TypeTodo⟩]
        selectMode.modeEdit 0)
      [(exampleEnv, Msg.KeyMsg KeyType.KeyEnter "enter"),
        (typingEnv "new  @x", Msg.KeyMsg KeyType.KeyOther "x"),
        (exampleEnv, Msg.KeyMsg KeyType.KeyEnter "enter")]
      = some { state := appState.stateViewMain, author := "User",
               entries := [⟨"a", 1, none, "new  @x", "u", TypeTodo⟩], textInput := "",
               cursor := 0, selectList := [⟨"a", 1, none, "old", "u", TypeTodo⟩],
               selectedIDs := [], selectionMode := selectMode.modeEdit, msg := "" } ∧
    ∃ sel m1, index [(⟨"a", 1, none, "old", "u", TypeTodo⟩ : Entry)] 0 = some sel ∧
      Update exampleEnv (exampleSelect [⟨"a", 1, none, "old", "u", TypeTodo⟩]
        [⟨"a", 1, none, "old", "u", TypeTodo⟩] selectMode.modeEdit 0)
        (Msg.KeyMsg KeyType.KeyEnter "enter") = some (m1, Cmd.nil) ∧
      m1.state = appState.stateEditTaskInput ∧
      m1.textInput = exampleEnv.tiSetValue sel.Text ∧ exampleEnv.tiSetValue "old" = "old" :=
  ⟨by decide,
    (C20_edit_flow exampleEnv (exampleSelect [⟨"a", 1, none, "old", "u", TypeTodo⟩]
      [⟨"a", 1, none, "old", "u", TypeTodo⟩] selectMode.modeEdit 0) KeyType.KeyEnter rfl rfl
      (by decide) (by decide)).imp
      (fun _ h => h.imp (fun _ h' => ⟨h'.1, h'.2.1, h'.2.2.1, h'.2.2.2.1, by decide⟩))⟩

/-- C15: starting in the main state from a collection with pairwise distinct
ids in which no note has `completed_at`, every sequence of input events
(persist-and-reload returning the saved collection, generated ids fresh) is
processed without a panic and ends in a state whose collection has no note
with `completed_at` present and pairwise distinct ids; and whenever the state
is a done-mode selection, its selection list consists of todos of the current
collection, so `MarkDone` on the id under the cursor marks a todo. -/
theorem C15_notes_never_completed (author : String) (C : List Entry)
    (evs : List (Env × Msg)) (hn : (C.map Entry.ID).Nodup) (ho : NotesOpen C)
    (hf : FreshIdeal (initialModel author C) evs) :
    ∃ m', run (initialModel author C) evs = some m' ∧ NotesOpen m'.entries ∧
      (m'.entries.map Entry.ID).Nodup ∧
      (m'.state = appState.stateSelectTask → m'.selectionMode = selectMode.modeDone →
        ∀ s ∈ m'.selectList, s ∈ m'.entries ∧ s.Type_ = TypeTodo) := by
  have h0 : Inv (initialModel author C) := Inv_idle _ (Or.inl rfl) hn ho
  obtain ⟨m', hrun, hInv⟩ := Inv_run evs (initialModel author C) h0 hf
  exact ⟨m', hrun, hInv.2.1, hInv.1, hInv.2.2.2⟩

/-- Witness for C15: with a note and an open todo, typing `/done`, submitting
it and confirming the selection marks the todo, not the note. -/
theorem C15_notes_never_completed_witness :
    run (initialModel "User" [⟨"a", 1, none, "n", "u", TypeNote⟩, ⟨"b", 2, none, "t", "u", TypeTodo⟩])
      [(typingEnv "/done", Msg.KeyMsg KeyType.KeyOther "x"),
        (exampleEnv, Msg.KeyMsg KeyType.KeyEnter "enter"),
        (exampleEnv, Msg.KeyMsg KeyType.KeyEnter "enter")]
      = some { state := appState.stateViewMain, author := "User",
               entries := [⟨"a", 1, none, "n", "u", TypeNote⟩, ⟨"b", 2, some 5, "t", "u", TypeTodo⟩],
               textInput := "", cursor := 0,
               selectList := [⟨"b", 2, none, "t", "u", TypeTodo⟩],
               selectedIDs := [], selectionMode := selectMode.modeDone, msg := "" } ∧
    ∃ m', run (initialModel "User"
          [⟨"a", 1, none, "n", "u", TypeNote⟩, ⟨"b", 2, none, "t", "u", TypeTodo⟩])
        [(typingEnv "/done", Msg.KeyMsg KeyType.KeyOther "x"),
          (exampleEnv, Msg.KeyMsg KeyType.KeyEnter "enter"),
          (exampleEnv, Msg.KeyMsg KeyType.KeyEnter "enter")] = some m' ∧
      NotesOpen m'.entries :=
  ⟨by decide,
    (C15_notes_never_completed "User"
      [⟨"a", 1, none, "n", "u", TypeNote⟩, ⟨"b", 2, none, "t", "u", TypeTodo⟩]
      [(typingEnv "/done", Msg.KeyMsg KeyType.KeyOther "x"),
        (exampleEnv, Msg.KeyMsg KeyType.KeyEnter "enter"),
        (exampleEnv, Msg.KeyMsg KeyType.KeyEnter "enter")]
      (by decide)
      (by intro e he hnote
          simp only [List.mem_cons, List.mem_singleton, List.not_mem_nil, or_false] at he
          rcases he with rfl | rfl <;> rfl)
      ⟨fun _ => rfl, by decide, fun _ => rfl, by decide, fun _ => rfl, by decide,
        trivial⟩).imp
      (fun _ h => ⟨h.1, h.2.1⟩)⟩

/-! ## Claims on texts without a mention token -/

theorem filter_mention_nil (l : List String) (h : ∀ p ∈ l, mentionToken p = false) :
    l.filter mentionToken = [] ∧ l.filter (fun p => !mentionToken p) = l := by
  constructor
  · apply List.filter_eq_nil_iff.mpr
    intro a ha
    rw [h a ha]
    decide
  · apply List.filter_eq_self.mpr
    intro a ha
    rw [h a ha]
    rfl

/-- Counterexample to C22 as stated: the todo texts `a@b  c` and `@  x` have
no mention token, yet they are stored with the run of spaces collapsed. -/
theorem C22_at_sign_retokenises_counterexample :
    (∀ p ∈ Fields "a@b  c", mentionToken p = false) ∧
      (AddEntry [] "a@b  c" "User" TypeTodo "id1" 0).map Entry.Text = ["a@b c"] ∧
      (AddEntry [] "a@b  c" "User" TypeTodo "id1" 0).map Entry.Text ≠ ["a@b  c"] ∧
      (∀ p ∈ Fields "@  x", mentionToken p = false) ∧
      (AddEntry [] "@  x" "User" TypeTodo "id1" 0).map Entry.Text = ["@ x"] := by
  decide

/-- C22 (amended): for a todo-type `AddEntry` whose text has no mention
token, the author is the passed author. When the text has no `@` character
at all, the stored text is the passed text unchanged, runs of several spaces
included; when it has an `@` (inside a token such as `a@b`, or as a bare
`@`), the stored text is the sequence of all whitespace-delimited tokens of
the text, in order, joined by single spaces. -/
theorem C22_AddEntry_todo_without_mention (entries : List Entry)
    (text author newID : String) (now : Time)
    (h : ∀ p ∈ Fields text, mentionToken p = false) :
    ∃ e, AddEntry entries text author TypeTodo newID now = entries ++ [e] ∧
      e.Author = author ∧
      ('@' ∉ text.data → e.Text = text) ∧
      ('@' ∈ text.data → e.Text = Join (Fields text) " " ∧ Fields e.Text = Fields text) := by
  obtain ⟨hnil, hall⟩ := filter_mention_nil (Fields text) h
  refine ⟨_, rfl, ?_, ?_, ?_⟩
  · show (finalAuthorText text author TypeTodo).1 = author
    cases hc : Contains text "@" with
    | true => rw [finalAuthorText_todo_at text author hc, hnil]; rfl
    | false => rw [finalAuthorText_todo_no_at text author hc]
  · intro hno
    show (finalAuthorText text author TypeTodo).2 = text
    have hc : Contains text "@" = false := by
      cases hc : Contains text "@" with
      | true => exact absurd ((Contains_at_iff text).mp hc) hno
      | false => rfl
    rw [finalAuthorText_todo_no_at text author hc]
  · intro hat
    have hc : Contains text "@" = true := (Contains_at_iff text).mpr hat
    have ht : (finalAuthorText text author TypeTodo).2 = Join (Fields text) " " := by
      rw [finalAuthorText_todo_at text author hc, hall]
    refine ⟨ht, ?_⟩
    show Fields (finalAuthorText text author TypeTodo).2 = Fields text
    rw [ht]
    exact Fields_Join _ (Fields_tokens text)

/-- Witness for C22 (amended): a text without `@` keeps its spaces, a text
with `@` inside a token is re-joined with single spaces; the author is the
passed one in both. -/
theorem C22_AddEntry_todo_without_mention_witness :
    (∀ p ∈ Fields "buy  milk", mentionToken p = false) ∧
      AddEntry [] "buy  milk" "User" TypeTodo "id1" 0
        = [⟨"id1", 0, none, "buy  milk", "User", TypeTodo⟩] ∧
      AddEntry [] "a@b  c" "User" TypeTodo "id1" 0
        = [⟨"id1", 0, none, "a@b c", "User", TypeTodo⟩] ∧
      ∃ e, AddEntry [] "buy  milk" "User" TypeTodo "id1" 0 = [] ++ [e] ∧
        e.Author = "User" ∧
        ('@' ∉ "buy  milk".data → e.Text = "buy  milk") ∧
        ('@' ∈ "buy  milk".data →
          e.Text = Join (Fields "buy  milk") " " ∧ Fields e.Text = Fields "buy  milk") :=
  ⟨by decide, by decide, by decide,
    C22_AddEntry_todo_without_mention [] "buy  milk" "User" "id1" 0 (by decide)⟩

/-! ## Claims on termination requests -/

theorem finishSelect_cmd (env : Env) (m : model) (r : model × Cmd)
    (h : finishSelect env m = some r) : r.2 = Cmd.nil := by
  unfold finishSelect at h
  rw [← Option.some.inj h]

theorem updateTaskSelect_cmd (env : Env) (m : model) (msg : Msg) (r : model × Cmd)
    (h : updateTaskSelect env m msg = some r) : r.2 = Cmd.nil := by
  cases msg with
  | WindowSizeMsg w hh => rw [← Option.some.inj h]
  | Other => rw [← Option.some.inj h]
  | KeyMsg ty str =>
    unfold updateTaskSelect at h
    dsimp only at h
    cases hidx : index m.selectList m.cursor with
    | none =>
      rw [hidx] at h
      dsimp only at h
      by_cases c1 : str = "up" ∨ str = "k"
      · rw [if_pos c1] at h; rw [← Option.some.inj h]
      rw [if_neg c1] at h
      by_cases c2 : str = "down" ∨ str = "j"
      · rw [if_pos c2] at h; rw [← Option.some.inj h]
      rw [if_neg c2] at h
      by_cases c3 : str = " "
      · rw [if_pos c3] at h
        by_cases hm : m.selectionMode = selectMode.modeRemove
        · rw [if_pos hm] at h; cases h
        · rw [if_neg hm] at h; rw [← Option.some.inj h]
      rw [if_neg c3] at h
      by_cases c4 : str = "enter"
      · rw [if_pos c4] at h
        by_cases hm : m.selectionMode = selectMode.modeRemove
        · rw [if_pos hm] at h
          by_cases hl : m.selectedIDs.length = 0
          · rw [if_pos hl] at h; cases h
          · rw [if_neg hl] at h; exact finishSelect_cmd env _ r h
        · rw [if_neg hm] at h; cases h
      rw [if_neg c4] at h
      by_cases c5 : str = "esc"
      · rw [if_pos c5] at h; rw [← Option.some.inj h]
      rw [if_neg c5] at h
      rw [← Option.some.inj h]
    | some sel =>
      rw [hidx] at h
      dsimp only at h
      by_cases c1 : str = "up" ∨ str = "k"
      · rw [if_pos c1] at h; rw [← Option.some.inj h]
      rw [if_neg c1] at h
      by_cases c2 : str = "down" ∨ str = "j"
      · rw [if_pos c2] at h; rw [← Option.some.inj h]
      rw [if_neg c2] at h
      by_cases c3 : str = " "
      · rw [if_pos c3] at h
        by_cases hm : m.selectionMode = selectMode.modeRemove
        · rw [if_pos hm] at h
          by_cases ht : sel.ID ∈ m.selectedIDs
          · rw [if_pos ht] at h; rw [← Option.some.inj h]
          · rw [if_neg ht] at h; rw [← Option.some.inj h]
        · rw [if_neg hm] at h; rw [← Option.some.inj h]
      rw [if_neg c3] at h
      by_cases c4 : str = "enter"
      · rw [if_pos c4] at h
        by_cases hm : m.selectionMode = selectMode.modeRemove
        · rw [if_pos hm] at h
          by_cases hl : m.selectedIDs.length = 0
          · rw [if_pos hl] at h; exact finishSelect_cmd env _ r h
          · rw [if_neg hl] at h; exact finishSelect_cmd env _ r h
        · rw [if_neg hm] at h
          by_cases hd : m.selectionMode = selectMode.modeDone
          · rw [if_pos hd] at h; exact finishSelect_cmd env _ r h
          rw [if_neg hd] at h
          by_cases hu : m.selectionMode = selectMode.modeUndone
          · rw [if_pos hu] at h; exact finishSelect_cmd env _ r h
          rw [if_neg hu] at h
          by_cases he : m.selectionMode = selectMode.modeEdit
          · rw [if_pos he] at h; rw [← Option.some.inj h]
          rw [if_neg he] at h
          exact finishSelect_cmd env _ r h
      rw [if_neg c4] at h
      by_cases c5 : str = "esc"
      · rw [if_pos c5] at h; rw [← Option.some.inj h]
      rw [if_neg c5] at h
      rw [← Option.some.inj h]

theorem updateEditTask_cmd (env : Env) (m : model) (msg : Msg) (r : model × Cmd)
    (h : updateEditTask env m msg = some r) : r.2 ≠ Cmd.Quit := by
  cases msg with
  | WindowSizeMsg w hh => rw [← Option.some.inj h]; exact fun hq => Cmd.noConfusion hq
  | Other => rw [← Option.some.inj h]; exact fun hq => Cmd.noConfusion hq
  | KeyMsg ty str =>
    cases ty
    case KeyEnter =>
      unfold updateEditTask at h
      dsimp only at h
      cases hidx : index m.selectList m.cursor with
      | none => rw [hidx] at h; cases h
      | some sel =>
        rw [hidx] at h
        rw [← Option.some.inj h]
        exact fun hq => Cmd.noConfusion hq
    all_goals (rw [← Option.some.inj h]; exact fun hq => Cmd.noConfusion hq)

theorem updateHistory_cmd (m : model) (msg : Msg) (r : model × Cmd)
    (h : updateHistory m msg = some r) : r.2 = Cmd.nil := by
  cases msg <;> rw [← Option.some.inj h]

/-- Counterexample to C21 as stated: in the selection state, in the edit
state and in the history state, the key `ctrl+c` makes `Update` return the
terminate command. -/
theorem C21_ctrl_c_quits_everywhere_counterexample :
    (exampleSelect [⟨"a", 1, none, "t", "u", TypeTodo⟩] [⟨"a", 1, none, "t", "u", TypeTodo⟩]
        selectMode.modeDone 0).state ≠ appState.stateViewMain ∧
      (Update exampleEnv
        (exampleSelect [⟨"a", 1, none, "t", "u", TypeTodo⟩] [⟨"a", 1, none, "t", "u", TypeTodo⟩]
          selectMode.modeDone 0)
        (Msg.KeyMsg KeyType.KeyOther "ctrl+c")).map (fun r => r.2) = some Cmd.Quit ∧
      (Update exampleEnv
        { (exampleMain [] "") with state := appState.stateEditTaskInput }
        (Msg.KeyMsg KeyType.KeyOther "ctrl+c")).map (fun r => r.2) = some Cmd.Quit ∧
      (Update exampleEnv
        { (exampleMain [] "") with state := appState.stateHistoryView }
        (Msg.KeyMsg KeyType.KeyOther "ctrl+c")).map (fun r => r.2) = some Cmd.Quit := by
  decide

/-- C21 (amended): the key `ctrl+c` makes `Update` return the terminate
command in every state, leaving the model unchanged. For every state other
than the main state and every input event other than the key `ctrl+c`,
`Update` never returns the terminate command; in the main state, submitting
the `/exit` command returns it. -/
theorem C21_quit_by_exit_or_ctrl_c (env : Env) (m : model) (msg : Msg) :
    (∀ ty : KeyType, Update env m (Msg.KeyMsg ty "ctrl+c") = some (m, Cmd.Quit)) ∧
      (m.state ≠ appState.stateViewMain → (∀ ty : KeyType, msg ≠ Msg.KeyMsg ty "ctrl+c") →
        ∀ r, Update env m msg = some r → r.2 ≠ Cmd.Quit) ∧
      (m.state = appState.stateViewMain →
        (Split m.textInput ' ').head? = some "/exit" →
        ∀ str : String, str ≠ "ctrl+c" →
          Update env m (Msg.KeyMsg KeyType.KeyEnter str) =
            some ({ m with msg := "", textInput := "" }, Cmd.Quit)) := by
  refine ⟨fun ty => ?_, ?_, ?_⟩
  · simp only [Update, if_true]
  · intro hstate hkey r hr
    have hU : Update env m msg = updateByState env m msg := by
      cases msg with
      | KeyMsg ty str =>
        have hne : str ≠ "ctrl+c" := fun h => hkey ty (by rw [h])
        simp only [Update, if_neg hne]
      | WindowSizeMsg w hh => rfl
      | Other => rfl
    rw [hU] at hr
    unfold updateByState at hr
    cases hs : m.state with
    | stateViewMain => exact absurd hs hstate
    | stateSelectTask =>
      rw [hs] at hr
      rw [updateTaskSelect_cmd env m msg r hr]
      exact fun hq => Cmd.noConfusion hq
    | stateEditTaskInput =>
      rw [hs] at hr
      exact updateEditTask_cmd env m msg r hr
    | stateHistoryView =>
      rw [hs] at hr
      rw [updateHistory_cmd m msg r hr]
      exact fun hq => Cmd.noConfusion hq
  · intro hstate hcmd str hstr
    obtain ⟨rest, hrest⟩ := Split_cons m.textInput "/exit" hcmd
    have hpre : HasPrefix m.textInput "/" = true :=
      HasPrefix_of_head m.textInput "/exit" hcmd (by decide)
    have hrun : runCommand env { m with msg := "", textInput := "" } m.textInput =
        some ({ m with msg := "", textInput := "" }, Cmd.Quit) := by
      unfold runCommand
      rw [hrest]
      dsimp only
      rw [if_pos rfl]
    simp only [Update, if_neg hstr, updateByState, hstate, updateMain, hpre, if_true]
    rw [hstate] at hrun
    exact hrun

/-- Witness for C21 (amended): in the selection state `enter`, `esc` and a
window resize do not terminate, `ctrl+c` does; `/exit` terminates from the
main state. -/
theorem C21_quit_by_exit_or_ctrl_c_witness :
    (Update exampleEnv
        (exampleSelect [⟨"a", 1, none, "t", "u", TypeTodo⟩] [⟨"a", 1, none, "t", "u", TypeTodo⟩]
          selectMode.modeDone 0)
        (Msg.KeyMsg KeyType.KeyEsc "esc")).map (fun r => r.2) = some Cmd.nil ∧
      (Update exampleEnv (exampleMain [] "/exit")
        (Msg.KeyMsg KeyType.KeyEnter "enter")).map (fun r => r.2) = some Cmd.Quit ∧
      (∀ r, Update exampleEnv
          (exampleSelect [⟨"a", 1, none, "t", "u", TypeTodo⟩] [⟨"a", 1, none, "t", "u", TypeTodo⟩]
            selectMode.modeDone 0)
          (Msg.KeyMsg KeyType.KeyEnter "enter") = some r → r.2 ≠ Cmd.Quit) :=
  ⟨by decide, by decide,
    (C21_quit_by_exit_or_ctrl_c exampleEnv
      (exampleSelect [⟨"a", 1, none, "t", "u", TypeTodo⟩] [⟨"a", 1, none, "t", "u", TypeTodo⟩]
        selectMode.modeDone 0)
      (Msg.KeyMsg KeyType.KeyEnter "enter")).2.1 (by decide)
      (fun _ h => absurd (Msg.KeyMsg.inj h).2 (by decide))⟩

/-! ## The cursor stays inside the selection list -/

theorem save_frame (env : Env) (m : model) :
    (save env m).state = m.state ∧ (save env m).cursor = m.cursor ∧
      (save env m).selectList = m.selectList := by
  unfold save reloadEntries
  split <;> split <;> exact ⟨rfl, rfl, rfl⟩

theorem CursorOK_idle (r : model)
    (hs : r.state = appState.stateViewMain ∨ r.state = appState.stateHistoryView) :
    CursorOK r := by
  intro h
  rcases hs with hs | hs <;> rcases h with h | h <;> rw [hs] at h <;> cases h

theorem CursorOK_prepare (m : model) (mode : selectMode)
    (hstate : m.state = appState.stateViewMain) : CursorOK (prepareTaskSelection m mode) := by
  obtain ⟨_, _, _, _, _, hempty, hfull⟩ := prepareTaskSelection_spec m mode
  by_cases hp : poolOf mode m.entries = []
  · exact CursorOK_idle _ (Or.inl ((hempty hp).1.trans hstate))
  · obtain ⟨_, hl, hc, _⟩ := hfull hp
    intro _
    rw [hc, hl]
    have : 0 < (poolOf mode m.entries).length := List.length_pos.mpr hp
    exact ⟨le_refl 0, by omega⟩

theorem todoCommand_state (env : Env) (m : model) (val : String) :
    (todoCommand env m val).state = m.state := by
  unfold todoCommand
  dsimp only
  by_cases c : (if TrimPrefix val "/todo " = "" then TrimPrefix val "/t "
      else TrimPrefix val "/todo ") ≠ ""
  · rw [if_pos c]; exact (save_frame env _).1
  · rw [if_neg c]

theorem authorCommand_state (m : model) (val : String) :
    (authorCommand m val).state = m.state := by
  unfold authorCommand
  dsimp only
  split <;> rfl

theorem exportCommand_state (env : Env) (m : model) :
    (exportCommand env m).state = m.state := by
  unfold exportCommand
  dsimp only
  split <;> rfl

theorem Cur_runCommand (env : Env) (m : model) (val : String)
    (hstate : m.state = appState.stateViewMain) :
    ∃ r, runCommand env m val = some r ∧ CursorOK r.1 := by
  obtain ⟨rest, hrest⟩ := splitAux_head ' ' val.data []
  have hne : Split val ' ' ≠ [] := by
    unfold Split
    rw [hrest]
    exact List.cons_ne_nil _ _
  have hm : CursorOK m := CursorOK_idle m (Or.inl hstate)
  cases hsp : Split val ' ' with
  | nil => exact absurd hsp hne
  | cons cmd rest' =>
    unfold runCommand
    rw [hsp]
    dsimp only
    by_cases c1 : cmd = "/exit"
    · rw [if_pos c1]; exact ⟨_, rfl, hm⟩
    rw [if_neg c1]
    by_cases c2 : cmd = "/todo" ∨ cmd = "/t"
    · rw [if_pos c2]
      exact ⟨_, rfl, CursorOK_idle _ (Or.inl ((todoCommand_state env m val).trans hstate))⟩
    rw [if_neg c2]
    by_cases c3 : cmd = "/done" ∨ cmd = "/d"
    · rw [if_pos c3]; exact ⟨_, rfl, CursorOK_prepare m _ hstate⟩
    rw [if_neg c3]
    by_cases c4 : cmd = "/undone"
    · rw [if_pos c4]; exact ⟨_, rfl, CursorOK_prepare m _ hstate⟩
    rw [if_neg c4]
    by_cases c5 : cmd = "/rm"
    · rw [if_pos c5]; exact ⟨_, rfl, CursorOK_prepare m _ hstate⟩
    rw [if_neg c5]
    by_cases c6 : cmd = "/edit" ∨ cmd = "/e"
    · rw [if_pos c6]; exact ⟨_, rfl, CursorOK_prepare m _ hstate⟩
    rw [if_neg c6]
    by_cases c7 : cmd = "/dhist"
    · rw [if_pos c7]; exact ⟨_, rfl, CursorOK_idle _ (Or.inr rfl)⟩
    rw [if_neg c7]
    by_cases c8 : cmd = "/author"
    · rw [if_pos c8]
      exact ⟨_, rfl, CursorOK_idle _ (Or.inl ((authorCommand_state m val).trans hstate))⟩
    rw [if_neg c8]
    by_cases c9 : cmd = "/export"
    · rw [if_pos c9]
      exact ⟨_, rfl, CursorOK_idle _ (Or.inl ((exportCommand_state env m).trans hstate))⟩
    rw [if_neg c9]
    by_cases c10 : cmd = "/help"
    · rw [if_pos c10]; exact ⟨_, rfl, hm⟩
    rw [if_neg c10]
    exact ⟨_, rfl, hm⟩

theorem Cur_updateMain (env : Env) (m : model) (msg : Msg)
    (hstate : m.state = appState.stateViewMain) :
    ∃ r, updateMain env m msg = some r ∧ CursorOK r.1 := by
  have hm : CursorOK m := CursorOK_idle m (Or.inl hstate)
  cases msg with
  | KeyMsg ty str =>
    cases ty
    case KeyEnter =>
      unfold updateMain
      dsimp only
      by_cases c1 : HasPrefix m.textInput "/" = true
      · rw [if_pos c1]
        exact Cur_runCommand env { m with msg := "", textInput := "" } m.textInput hstate
      rw [if_neg c1]
      by_cases c2 : m.textInput ≠ ""
      · rw [if_pos c2]
        exact ⟨_, rfl, CursorOK_idle _ (Or.inl ((save_frame env _).1.trans hstate))⟩
      · rw [if_neg c2]
        exact ⟨_, rfl, hm⟩
    all_goals exact ⟨_, rfl, hm⟩
  | WindowSizeMsg w hh => exact ⟨_, rfl, hm⟩
  | Other => exact ⟨_, rfl, hm⟩

theorem Cur_finishSelect (env : Env) (m : model) :
    ∃ r, finishSelect env m = some r ∧ CursorOK r.1 :=
  ⟨_, rfl, CursorOK_idle _ (Or.inl rfl)⟩

theorem Cur_updateTaskSelect (env : Env) (m : model) (msg : Msg) (h : CursorOK m)
    (hstate : m.state = appState.stateSelectTask) :
    ∃ r, updateTaskSelect env m msg = some r ∧ CursorOK r.1 := by
  have hb := h (Or.inl hstate)
  obtain ⟨sel, hsel, _⟩ := index_of_bounds m.selectList m.cursor hb.1 hb.2
  cases msg with
  | WindowSizeMsg w hh => exact ⟨_, rfl, h⟩
  | Other => exact ⟨_, rfl, h⟩
  | KeyMsg ty str =>
    unfold updateTaskSelect
    dsimp only
    rw [hsel]
    dsimp only
    by_cases c1 : str = "up" ∨ str = "k"
    · rw [if_pos c1]
      by_cases hc : m.cursor > 0
      · rw [if_pos hc]
        exact ⟨_, rfl, fun _ => ⟨by show 0 ≤ m.cursor - 1; omega,
          by show m.cursor - 1 < (m.selectList.length : Int); omega⟩⟩
      · rw [if_neg hc]
        exact ⟨_, rfl, h⟩
    rw [if_neg c1]
    by_cases c2 : str = "down" ∨ str = "j"
    · rw [if_pos c2]
      by_cases hc : m.cursor < (m.selectList.length : Int) - 1
      · rw [if_pos hc]
        exact ⟨_, rfl, fun _ => ⟨by show 0 ≤ m.cursor + 1; omega,
          by show m.cursor + 1 < (m.selectList.length : Int); omega⟩⟩
      · rw [if_neg hc]
        exact ⟨_, rfl, h⟩
    rw [if_neg c2]
    by_cases c3 : str = " "
    · rw [if_pos c3]
      by_cases hm : m.selectionMode = selectMode.modeRemove
      · rw [if_pos hm]
        by_cases ht : sel.ID ∈ m.selectedIDs
        · rw [if_pos ht]
          exact ⟨_, rfl, h⟩
        · rw [if_neg ht]
          exact ⟨_, rfl, h⟩
      · rw [if_neg hm]
        exact ⟨_, rfl, h⟩
    rw [if_neg c3]
    by_cases c4 : str = "enter"
    · rw [if_pos c4]
      by_cases hm : m.selectionMode = selectMode.modeRemove
      · rw [if_pos hm]
        by_cases hl : m.selectedIDs.length = 0
        · rw [if_pos hl]
          exact Cur_finishSelect env _
        · rw [if_neg hl]
          exact Cur_finishSelect env _
      · rw [if_neg hm]
        by_cases hd : m.selectionMode = selectMode.modeDone
        · rw [if_pos hd]
          exact Cur_finishSelect env _
        rw [if_neg hd]
        by_cases hu : m.selectionMode = selectMode.modeUndone
        · rw [if_pos hu]
          exact Cur_finishSelect env _
        rw [if_neg hu]
        by_cases he : m.selectionMode = selectMode.modeEdit
        · rw [if_pos he]
          exact ⟨_, rfl, fun _ => hb⟩
        rw [if_neg he]
        exact Cur_finishSelect env _
    rw [if_neg c4]
    by_cases c5 : str = "esc"
    · rw [if_pos c5]
      exact ⟨_, rfl, CursorOK_idle _ (Or.inl rfl)⟩
    rw [if_neg c5]
    exact ⟨_, rfl, h⟩

theorem Cur_updateEditTask (env : Env) (m : model) (msg : Msg) (h : CursorOK m)
    (hstate : m.state = appState.stateEditTaskInput) :
    ∃ r, updateEditTask env m msg = some r ∧ CursorOK r.1 := by
  have hb := h (Or.inr hstate)
  obtain ⟨sel, hsel, _⟩ := index_of_bounds m.selectList m.cursor hb.1 hb.2
  cases msg with
  | WindowSizeMsg w hh => exact ⟨_, rfl, h⟩
  | Other => exact ⟨_, rfl, h⟩
  | KeyMsg ty str =>
    cases ty
    case KeyEnter =>
      unfold updateEditTask
      dsimp only
      rw [hsel]
      exact ⟨_, rfl, CursorOK_idle _ (Or.inl rfl)⟩
    case KeyEsc => exact ⟨_, rfl, CursorOK_idle _ (Or.inl rfl)⟩
    all_goals exact ⟨_, rfl, h⟩

theorem Cur_updateHistory (m : model) (msg : Msg) (h : CursorOK m) :
    ∃ r, updateHistory m msg = some r ∧ CursorOK r.1 := by
  cases msg with
  | WindowSizeMsg w hh => exact ⟨_, rfl, h⟩
  | Other => exact ⟨_, rfl, h⟩
  | KeyMsg ty str => exact ⟨_, rfl, CursorOK_idle _ (Or.inl rfl)⟩

theorem Cur_updateByState (env : Env) (m : model) (msg : Msg) (h : CursorOK m) :
    ∃ r, updateByState env m msg = some r ∧ CursorOK r.1 := by
  unfold updateByState
  cases hs : m.state with
  | stateViewMain => exact Cur_updateMain env m msg hs
  | stateSelectTask => exact Cur_updateTaskSelect env m msg h hs
  | stateEditTaskInput => exact Cur_updateEditTask env m msg h hs
  | stateHistoryView => exact Cur_updateHistory m msg h

theorem Cur_Update (env : Env) (m : model) (msg : Msg) (h : CursorOK m) :
    ∃ r, Update env m msg = some r ∧ CursorOK r.1 := by
  cases msg with
  | WindowSizeMsg w hh => exact Cur_updateByState env m _ h
  | Other => exact Cur_updateByState env m _ h
  | KeyMsg ty str =>
    unfold Update
    dsimp only
    by_cases hc : str = "ctrl+c"
    · rw [if_pos hc]
      exact ⟨_, rfl, h⟩
    · rw [if_neg hc]
      exact Cur_updateByState env m _ h

theorem Cur_run (evs : List (Env × Msg)) (m : model) (h : CursorOK m) :
    ∃ m', run m evs = some m' ∧ CursorOK m' := by
  induction evs generalizing m with
  | nil => exact ⟨m, rfl, h⟩
  | cons ev rest ih =>
    obtain ⟨env, msg⟩ := ev
    obtain ⟨r, hr, hOK⟩ := Cur_Update env m msg h
    obtain ⟨m', hm', hOK'⟩ := ih r.1 hOK
    refine ⟨m', ?_, hOK'⟩
    show (match Update env m msg with
      | none => none
      | some r => run r.1 rest) = some m'
    rw [hr]
    exact hm'

/-- C23: every sequence of input events from the initial main state (any
author, any loaded collection, any answers of the outside world) is processed
without a panic, and in the state reached, whenever the state is the
selection state or the edit-input state, the selection list is non-empty and
`0 <= cursor < len(selectList)`, so the lookup of the selection-list entry at
the cursor succeeds; hence the next `Update` does not panic either. -/
theorem C23_cursor_in_bounds (author : String) (C : List Entry) (evs : List (Env × Msg)) :
    ∃ m', run (initialModel author C) evs = some m' ∧
      ((m'.state = appState.stateSelectTask ∨ m'.state = appState.stateEditTaskInput) →
        m'.selectList ≠ [] ∧ 0 ≤ m'.cursor ∧ m'.cursor < (m'.selectList.length : Int) ∧
          ∃ e, index m'.selectList m'.cursor = some e ∧ e ∈ m'.selectList) ∧
      (∀ (env : Env) (msg : Msg), ∃ r, Update env m' msg = some r) := by
  obtain ⟨m', hrun, hOK⟩ := Cur_run evs (initialModel author C) (CursorOK_idle _ (Or.inl rfl))
  refine ⟨m', hrun, ?_, ?_⟩
  · intro hs
    obtain ⟨h0, h1⟩ := hOK hs
    refine ⟨?_, h0, h1, index_of_bounds _ _ h0 h1⟩
    intro hnil
    rw [hnil] at h1
    simp only [List.length_nil, Int.ofNat_zero] at h1
    omega
  · intro env msg
    obtain ⟨r, hr, _⟩ := Cur_Update env m' msg hOK
    exact ⟨r, hr⟩

/-- Example for C23: `/rm` on two items, then `down` twice: the cursor stops
at the last index. -/
theorem C23_cursor_in_bounds_witness :
    run (initialModel "User" [⟨"a", 1, none, "n", "u", TypeNote⟩, ⟨"b", 2, none, "t", "u", TypeTodo⟩])
        [(typingEnv "/rm", Msg.KeyMsg KeyType.KeyOther "x"),
          (exampleEnv, Msg.KeyMsg KeyType.KeyEnter "enter"),
          (exampleEnv, Msg.KeyMsg KeyType.KeyDown "down"),
          (exampleEnv, Msg.KeyMsg KeyType.KeyDown "down")]
      = some { state := appState.stateSelectTask, author := "User",
               entries := [⟨"a", 1, none, "n", "u", TypeNote⟩, ⟨"b", 2, none, "t", "u", TypeTodo⟩],
               textInput := "", cursor := 1,
               selectList := [⟨"a", 1, none, "n", "u", TypeNote⟩, ⟨"b", 2, none, "t", "u", TypeTodo⟩],
               selectedIDs := [], selectionMode := selectMode.modeRemove, msg := "" } ∧
    ∃ m', run (initialModel "User"
          [⟨"a", 1, none, "n", "u", TypeNote⟩, ⟨"b", 2, none, "t", "u", TypeTodo⟩])
        [(typingEnv "/rm", Msg.KeyMsg KeyType.KeyOther "x"),
          (exampleEnv, Msg.KeyMsg KeyType.KeyEnter "enter"),
          (exampleEnv, Msg.KeyMsg KeyType.KeyDown "down"),
          (exampleEnv, Msg.KeyMsg KeyType.KeyDown "down")] = some m' :=
  ⟨by decide,
    (C23_cursor_in_bounds "User"
      [⟨"a", 1, none, "n", "u", TypeNote⟩, ⟨"b", 2, none, "t", "u", TypeTodo⟩]
      [(typingEnv "/rm", Msg.KeyMsg KeyType.KeyOther "x"),
        (exampleEnv, Msg.KeyMsg KeyType.KeyEnter "enter"),
        (exampleEnv, Msg.KeyMsg KeyType.KeyDown "down"),
        (exampleEnv, Msg.KeyMsg KeyType.KeyDown "down")]).imp (fun _ h => h.1)⟩

end Tuido
